import Mathlib

/-!
Shallow embedding of `src/base58check.js` (dashhive/base58check.js).

Conventions of the embedding:
* JS strings are `List Char` (the base58 strings and the hex strings alike);
  JS `Uint8Array` values are `List Nat` with every element `< 256`.
* The fixed-size digit buffers of the BaseX converter (whose sizes the source
  computes with floating-point `Math.log` ratios) are modelled as unbounded
  little-endian digit lists holding exactly the `length` significant positions
  of the JS array; the source's "Non-zero carry" overflow throw is the buffer
  running out, which the source sizes the buffer to make unreachable (spec
  section 4.1 calls it an unreachable internal-invariant violation), so the
  unbounded model never produces it.
* The asynchronous SHA-256 collaborator is an explicit function parameter
  `digest : List Nat → List Nat`.
* JS objects with optional fields become structures of `Option` fields; the
  source's in-place mutation of the caller's `parts` object becomes explicit
  state passing: each operation returns the post-call state of that object
  next to its result.
-/

namespace B58C

/-- Little-endian digits of `n` in base `b`, written with explicit fuel so the
kernel can evaluate it; `n` itself is enough fuel for any base `≥ 2`. -/
def digitsFuelLE (b : Nat) : Nat → Nat → List Nat
  | 0, _ => []
  | fuel + 1, n => if n = 0 then [] else n % b :: digitsFuelLE b fuel (n / b)

/-- Little-endian digits of `n` in base `b` (kernel-evaluable counterpart of
`Nat.digits` for `2 ≤ b`). -/
def natDigitsLE (b n : Nat) : List Nat := digitsFuelLE b n n

/-- One full pass of the source's in-place long multiply-add loop
(`base58check.js` lines 348-357 for encode, 403-412 for decode): the JS loop
walks the fixed buffer from its least-significant end, computing
"digits := digits * mul + carry" in base `outB` while tracking the number
`length` of significant positions.  `ds` is exactly the significant region,
little-endian; digits the carry spills past it are the positions the JS loop
keeps writing while `carry !== 0`. -/
def mulAddDigits (mul outB : Nat) : List Nat → Nat → List Nat
  | [], carry => natDigitsLE outB carry
  | d :: rest, carry =>
      (carry + mul * d) % outB :: mulAddDigits mul outB rest ((carry + mul * d) / outB)

/-- The byte-processing loop of `encode` (lines 345-363): fold every input byte
into the digit accumulator with "b58 = b58 * 256 + ch". -/
def bxGoEncode (base : Nat) (bytes : List Nat) : List Nat :=
  bytes.foldl (fun ds b => mulAddDigits 256 base ds b) []

/-- `LEADER = ALPHABET.charAt(0)` (line 318).  The alphabet is never empty once
`createEncoder` resolves its default, so the fallback character is irrelevant. -/
def leaderOf (A : List Char) : Char := A.headD (Char.ofNat 0)

/-- `BaseX.createEncoder(...).encode` (lines 322-375): count leading zero
bytes, long-multiply the remaining big-endian bytes into base-`A.length`
digits, strip leading zero digits, then print `zeroes` leader symbols followed
by the alphabet characters of the surviving digits. -/
def bxEncode (A : List Char) (src : List Nat) : List Char :=
  if src = [] then []
  else
    let zeroes := (src.takeWhile (fun b => b == 0)).length
    let rest := src.drop zeroes
    let ds := bxGoEncode A.length rest
    List.replicate zeroes (leaderOf A) ++
      (ds.reverse.dropWhile (fun d => d == 0)).map (fun d => A.getD d (Char.ofNat 0))

/-- Value read from the 256-entry `BASE_MAP` table (lines 304-315) at a
character code.  Codes below 256 hold the digit index, or the sentinel 255
(modelled as `invalid`) when the character is not in the alphabet; reading the
`Uint8Array` at a code ≥ 256 yields JS `undefined` (`jsUndefined`). -/
inductive MapVal where
  | valid : Nat → MapVal
  | invalid : MapVal
  | jsUndefined : MapVal
deriving DecidableEq

/-- `BASE_MAP[source.charCodeAt(psz)]` (line 398), for an alphabet accepted by
`createEncoder` (distinct characters with codes below 256, so `indexOf` is
exactly the table entry written at construction time). -/
def baseMapLookup (A : List Char) (c : Char) : MapVal :=
  if c.toNat < 256 then
    if c ∈ A then .valid (A.indexOf c) else .invalid
  else .jsUndefined

/-- The character-processing loop of `decodeUnsafe` (lines 396-418).
An `invalid` table entry (the 255 sentinel) aborts with JS `undefined`.
A `jsUndefined` read (code point ≥ 256) is NOT the sentinel, so the loop body runs
with `carry = undefined`: its first iteration computes `NaN % 256 >>> 0 = 0`
and `NaN / 256 >>> 0 = 0`, zeroing the least-significant digit and then
multiplying the remaining digits by the base with carry 0. -/
def bxGoDecode (A : List Char) : List Char → List Nat → Option (List Nat)
  | [], ds => some ds
  | c :: cs, ds =>
    match baseMapLookup A c with
    | .invalid => none
    | .valid d => bxGoDecode A cs (mulAddDigits A.length 256 ds d)
    | .jsUndefined => bxGoDecode A cs (0 :: mulAddDigits A.length 256 ds.tail 0)

/-- `decodeUnsafe` (lines 377-432; renamed, returning `none` for the JS
`undefined` result): count leading leader symbols, long-divide the remaining
characters into base-256 digits, strip leading zero digits, output
`zeroes` zero bytes followed by the surviving big-endian bytes. -/
def bxDecodeRaw (A : List Char) (s : List Char) : Option (List Nat) :=
  if s = [] then some []
  else
    let zeroes := (s.takeWhile (fun c => c == leaderOf A)).length
    match bxGoDecode A (s.drop zeroes) [] with
    | none => none
    | some ds => some (List.replicate zeroes 0 ++ ds.reverse.dropWhile (fun d => d == 0))

/-- Error taxonomy: one constructor per distinct `throw` site of the source
(`nonBaseChar` is the spec's DecodeError, `checksumMismatch` its ChecksumError,
`typeError` the `undefined.length` TypeError in `checksum` when neither key
field is usable). -/
inductive B58CErr where
  | nonBaseChar
  | unrecognizedVersion
  | badLength
  | pkhLength
  | bothKeys
  | pubVersionForPrivate
  | privVersionForPub
  | badPrivateKeyLength
  | badPubKeyHashLength
  | noKey
  | checksumMismatch
  | typeError
deriving DecidableEq

/-- `decode` (lines 434-440): an empty `Uint8Array` is still a truthy JS
object, so every non-`undefined` result of `decodeUnsafe` is returned as-is
and only `undefined` becomes the thrown "Non-base character" error. -/
def bxDecode (A : List Char) (s : List Char) : Except B58CErr (List Nat) :=
  match bxDecodeRaw A s with
  | some buf => .ok buf
  | none => .error .nonBaseChar

/-- The conditions under which `createEncoder` (lines 296-320) accepts an
alphabet and hands back the codec: the resolved alphabet is non-empty (a falsy
empty string falls back to the 58-symbol default), shorter than 255, and every
character has a distinct code below 256 (a repeated character hits the 255
sentinel check and throws "ambiguous"; a code ≥ 256 reads `undefined` from the
table, which also differs from 255 and throws "ambiguous"). -/
def createOk (A : List Char) : Prop :=
  A ≠ [] ∧ A.length < 255 ∧ A.Nodup ∧ ∀ c ∈ A, c.toNat < 256

/-- The default 58-symbol dictionary (line 10). -/
def base58Alphabet : List Char :=
  "123456789ABCDEFGHJKLMNPQRSTUVWXYZabcdefghijkmnopqrstuvwxyz".toList

instance decidableCreateOk (A : List Char) : Decidable (createOk A) := by
  unfold createOk
  infer_instance

/-! ### Hex / byte conversion helpers (lines 454-494) -/

/-- One digit of `Number.prototype.toString(16)`: `0`-`9` then lowercase
`a`-`f`. -/
def hexDigitChar (n : Nat) : Char :=
  if n < 10 then Char.ofNat (48 + n) else Char.ofNat (87 + n)

/-- `b.toString(16).padStart(2, "0")` for a byte `b < 256` (line 489). -/
def byteToHex (b : Nat) : List Char := [hexDigitChar (b / 16), hexDigitChar (b % 16)]

/-- `uint8ArrayToHex` (lines 484-494). -/
def u8ToHex (u : List Nat) : List Char := (u.map byteToHex).flatten

/-- Value of one hex character under `parseInt(_, 16)`: digits, lowercase and
uppercase letters. -/
def hexVal (c : Char) : Option Nat :=
  if 48 ≤ c.toNat ∧ c.toNat ≤ 57 then some (c.toNat - 48)
  else if 97 ≤ c.toNat ∧ c.toNat ≤ 102 then some (c.toNat - 87)
  else if 65 ≤ c.toNat ∧ c.toNat ≤ 70 then some (c.toNat - 55)
  else none

/-- `parseInt(hex[i] + hex[i+1], 16)` as stored into a `Uint8Array` slot
(line 458): `parseInt` keeps the longest valid numeric part it can read
from the left, and a leading invalid character yields `NaN`, which the typed
array stores as 0.  (The pair "0x" is read as a bare hex marker, also `NaN`,
which the second branch reproduces since `hexVal 'x' = none` and `'0'` has
value 0.) -/
def parsePair (a b : Char) : Nat :=
  match hexVal a, hexVal b with
  | some x, some y => 16 * x + y
  | some x, none => x
  | none, _ => 0

/-- `hexToUint8Array` (lines 454-464), defined on even-length hex strings; an
odd length makes the source compute a fractional `Uint8Array` length and throw
a `RangeError` (the "TODO throw if not even" comment), so theorems below only
use this on even-length strings. -/
def hexToU8 : List Char → List Nat
  | a :: b :: rest => parsePair a b :: hexToU8 rest
  | _ => []

/-! ### The Base58Check key codec (lines 22-280) -/

/-- Configuration of `Base58Check.create` after default resolution
(lines 22-31): the four version tags as hex strings.  The dictionary is passed
separately to the operations that radix-encode. -/
structure B58COpts where
  pubKeyHashVersion : List Char
  privateKeyVersion : List Char
  xpubVersion : List Char
  xprvVersion : List Char
deriving DecidableEq

/-- The default (Dash mainnet) configuration. -/
def defaultOpts : B58COpts :=
  { pubKeyHashVersion := ['4', 'c']
    privateKeyVersion := ['c', 'c']
    xpubVersion := "0488b21e".toList
    xprvVersion := "0488ade4".toList }

/-- The `parts` object: every field the source ever reads or writes on it.
`none` is a missing (JS `undefined`) field. -/
structure Parts where
  version : Option (List Char) := none
  pubKeyHash : Option (List Char) := none
  privateKey : Option (List Char) := none
  compressed : Option Bool := none
  check : Option (List Char) := none
  xprv : Option (List Char) := none
  xpub : Option (List Char) := none
  valid : Option Bool := none
deriving DecidableEq

/-- JS truthiness of an optional string field: missing and `""` are falsy. -/
def strTruthy : Option (List Char) → Bool
  | none => false
  | some s => !s.isEmpty

/-- Interpolating a possibly-missing field into a template literal: JS prints
`undefined` as the nine characters "undefined". -/
def versionText : Option (List Char) → List Char
  | some v => v
  | none => "undefined".toList

/-- `b58c._setVersion` (lines 71-105).  The function reads only the `version`,
`pubKeyHash` and `privateKey` fields and writes only `version`; it is modelled
as computing the new value of `version` (or an error). -/
def setVersionCore (o : B58COpts) (version pubKeyHash privateKey : Option (List Char)) :
    Except B58CErr (Option (List Char)) :=
  if strTruthy pubKeyHash && strTruthy privateKey then .error .bothKeys
  else if !strTruthy version then
    if strTruthy privateKey then .ok (some o.privateKeyVersion)
    else if strTruthy pubKeyHash then .ok (some o.pubKeyHashVersion)
    else .ok version
  else if strTruthy privateKey then
    if version = some o.pubKeyHashVersion then .error .pubVersionForPrivate else .ok version
  else if strTruthy pubKeyHash then
    if version = some o.privateKeyVersion then .error .privVersionForPub else .ok version
  else .ok version

/-- `b58c._setVersion` acting on the record: the post-call state of the
caller's `parts` object. -/
def b58cSetVersion (o : B58COpts) (p : Parts) : Except B58CErr Parts :=
  (setVersionCore o p.version p.pubKeyHash p.privateKey).map fun v => { p with version := v }

/-- `b58c._checksumHexRaw` (lines 61-69): first four bytes of the double
digest, re-encoded as hex. -/
def checksumHexRaw (digest : List Nat → List Nat) (hex : List Char) : List Char :=
  u8ToHex ((digest (digest (hexToU8 hex))).take 4)

/-- The computation of `b58c.checksum` (lines 36-59) as a function of the four
fields the source reads from `parts`: `version`, `pubKeyHash`, `privateKey`
and `compressed`.  It yields the resolved version and compressed flag (which
the source writes back into the caller's record) next to the checksum hex.
When both key fields are unusable the source evaluates `undefined.length` and
dies with a TypeError. -/
def checksumCore (o : B58COpts) (digest : List Nat → List Nat)
    (version pubKeyHash privateKey : Option (List Char)) (compressed : Option Bool) :
    Except B58CErr (Option (List Char) × Bool × List Char) := do
  let v ← setVersionCore o version pubKeyHash privateKey
  let comp := compressed.getD true
  if strTruthy pubKeyHash && (pubKeyHash.getD []).length != 40 then
    .error .pkhLength
  else
    match (if strTruthy pubKeyHash then pubKeyHash else privateKey) with
    | none => .error .typeError
    | some key =>
      let compression := if comp && key.length == 64 then ['0', '1'] else []
      .ok (v, comp, checksumHexRaw digest (versionText v ++ key ++ compression))

/-- `b58c.checksum` acting on the record: the checksum hex next to the
post-call state of the caller's `parts` object, whose `version` and
`compressed` fields the source writes (`_setVersion` and the `??` default). -/
def b58cChecksum (o : B58COpts) (digest : List Nat → List Nat) (p : Parts) :
    Except B58CErr (Parts × List Char) :=
  (checksumCore o digest p.version p.pubKeyHash p.privateKey p.compressed).map
    fun r => ({ p with version := r.1, compressed := some r.2.1 }, r.2.2)

/-- `b58c.decodeHex` (lines 135-193). -/
def b58cDecodeHex (o : B58COpts) (addr : List Char) : Except B58CErr Parts :=
  let v1 := addr.take o.privateKeyVersion.length
  let resolve : Except B58CErr (List Char × Bool) :=
    if v1 = o.pubKeyHashVersion ∨ v1 = o.privateKeyVersion then .ok (v1, false)
    else
      let xv := addr.take o.xprvVersion.length
      if xv = o.xpubVersion ∨ xv = o.xprvVersion then .ok (xv, true)
      else .error .unrecognizedVersion
  match resolve with
  | .error e => .error e
  | .ok (version, isXKey) =>
    if ¬(addr.length = 50 ∨ addr.length = 74 ∨ addr.length = 76) ∧ isXKey = false then
      .error .badLength
    else
      let rawAddr := (addr.take (addr.length - 8)).drop version.length
      let check := addr.drop (addr.length - 8)
      if addr.length = 50 then
        .ok { version := some version, pubKeyHash := some rawAddr, check := some check }
      else if isXKey then
        if version = o.xprvVersion then
          .ok { version := some version, xprv := some rawAddr, check := some check }
        else
          .ok { version := some version, xpub := some rawAddr, check := some check }
      else
        .ok { version := some version, privateKey := some (rawAddr.take 64),
              compressed := some (rawAddr.drop 64 == ['0', '1']), check := some check }

/-- `b58c.decode` (lines 128-132): radix-decode, hex-print, then `decodeHex`. -/
def b58cDecode (o : B58COpts) (A : List Char) (s : List Char) : Except B58CErr Parts :=
  match bxDecodeRaw A s with
  | none => .error .nonBaseChar
  | some u8 => b58cDecodeHex o (u8ToHex u8)

/-- `b58c.verifyHex` (lines 113-126).  `optVerify` is `opts?.verify`; only an
explicit `false` suppresses the throw, turning the mismatch into a
`valid := false` field on the returned (checksum-mutated) record. -/
def b58cVerifyHex (o : B58COpts) (digest : List Nat → List Nat) (addr : List Char)
    (optVerify : Option Bool) : Except B58CErr Parts := do
  let parts ← b58cDecodeHex o addr
  let (p2, check) ← b58cChecksum o digest parts
  if p2.check = some check then .ok p2
  else if optVerify = some false then .ok { p2 with valid := some false }
  else .error .checksumMismatch

/-- `b58c.verify` (lines 107-111): note it passes no `opts` through, so this
entry point always throws on mismatch. -/
def b58cVerify (o : B58COpts) (A : List Char) (digest : List Nat → List Nat)
    (s : List Char) : Except B58CErr Parts :=
  match bxDecodeRaw A s with
  | none => .error .nonBaseChar
  | some u8 => b58cVerifyHex o digest (u8ToHex u8) none

/-- `b58c._encodePrivateKeyHex` (lines 230-260).  A 66-char key carrying the
"01" marker forces `compressed = true` and is used as-is; a 64-char key gets
"01" or "00" appended after the (defaulted) `compressed` flag; anything else
throws.  Note the appended marker lives only in the local `key` string: the
record's `privateKey` field, which `checksum` reads, keeps its original value. -/
def b58cEncodePrivateKeyHex (o : B58COpts) (digest : List Nat → List Nat) (p : Parts) :
    Except B58CErr (Parts × List Char) := do
  let p1 : Parts := { p with compressed := some (p.compressed.getD true) }
  let key0 := p1.privateKey.getD []
  let resolved : Except B58CErr (Parts × List Char) :=
    if key0.length = 66 ∧ key0.drop 64 = ['0', '1'] then
      .ok ({ p1 with compressed := some true }, key0)
    else if key0.length = 64 then
      .ok (p1, key0 ++ if p1.compressed.getD true then ['0', '1'] else ['0', '0'])
    else .error .badPrivateKeyLength
  let (p2, key) ← resolved
  let p3 ← b58cSetVersion o p2
  let (p4, check) ← b58cChecksum o digest p3
  .ok (p4, versionText p4.version ++ key ++ check)

/-- `b58c._encodePubKeyHashHex` (lines 262-277). -/
def b58cEncodePubKeyHashHex (o : B58COpts) (digest : List Nat → List Nat) (p : Parts) :
    Except B58CErr (Parts × List Char) := do
  let key := p.pubKeyHash.getD []
  if key.length ≠ 40 then .error .badPubKeyHashLength
  else
    let p1 ← b58cSetVersion o p
    let (p2, check) ← b58cChecksum o digest p1
    .ok (p2, versionText p2.version ++ key ++ check)

/-- `b58c.encodeHex` (lines 210-222). -/
def b58cEncodeHex (o : B58COpts) (digest : List Nat → List Nat) (p : Parts) :
    Except B58CErr (Parts × List Char) :=
  if strTruthy p.pubKeyHash then b58cEncodePubKeyHashHex o digest p
  else if strTruthy p.privateKey then b58cEncodePrivateKeyHex o digest p
  else .error .noKey

/-- `b58c._encodeXKey` (lines 224-228). -/
def b58cEncodeXKey (A : List Char) (digest : List Nat → List Nat) (vk : List Char) :
    List Char :=
  bxEncode A (hexToU8 (vk ++ checksumHexRaw digest vk))

/-- `b58c.encode` (lines 195-208): extended keys win the dispatch outright
(before any mutual-exclusion check); otherwise `encodeHex` then radix-encode.
The returned `Parts` is the post-call state of the caller's record. -/
def b58cEncode (o : B58COpts) (A : List Char) (digest : List Nat → List Nat) (p : Parts) :
    Except B58CErr (Parts × List Char) :=
  if strTruthy p.xprv then
    let v := if strTruthy p.version then p.version.getD [] else o.xprvVersion
    .ok (p, b58cEncodeXKey A digest (v ++ p.xprv.getD []))
  else if strTruthy p.xpub then
    let v := if strTruthy p.version then p.version.getD [] else o.xpubVersion
    .ok (p, b58cEncodeXKey A digest (v ++ p.xpub.getD []))
  else
    match b58cEncodeHex o digest p with
    | .error e => .error e
    | .ok (p2, hex) => .ok (p2, bxEncode A (hexToU8 hex))

/-- Contract of the external SHA-256 collaborator (spec sections 5 and 6):
a fixed 32-byte digest. -/
def goodDigest (digest : List Nat → List Nat) : Prop :=
  ∀ u, (digest u).length = 32 ∧ ∀ x ∈ digest u, x < 256

/-! ### Arithmetic of the long multiply-add digit loops -/

theorem digitsFuelLE_eq {b : Nat} (hb : 2 ≤ b) :
    ∀ fuel n, n ≤ fuel → digitsFuelLE b fuel n = Nat.digits b n := by
  intro fuel
  induction fuel with
  | zero =>
    intro n hn
    have : n = 0 := Nat.le_zero.mp hn
    simp [digitsFuelLE, this]
  | succ fuel ih =>
    intro n hn
    by_cases h0 : n = 0
    · simp [digitsFuelLE, h0]
    · rw [digitsFuelLE, if_neg h0, Nat.digits_def' (by omega : 1 < b) (Nat.pos_of_ne_zero h0),
        ih (n / b) (by have := Nat.div_lt_self (Nat.pos_of_ne_zero h0) hb; omega)]

theorem natDigitsLE_eq {b : Nat} (hb : 2 ≤ b) (n : Nat) : natDigitsLE b n = Nat.digits b n :=
  digitsFuelLE_eq hb n n le_rfl

theorem ofDigits_mulAddDigits {outB : Nat} (hb : 2 ≤ outB) (mul : Nat) (ds : List Nat) :
    ∀ c, Nat.ofDigits outB (mulAddDigits mul outB ds c) = c + mul * Nat.ofDigits outB ds := by
  induction ds with
  | nil =>
    intro c
    rw [mulAddDigits, natDigitsLE_eq hb, Nat.ofDigits_digits, Nat.ofDigits_nil]
    ring
  | cons d rest ih =>
    intro c
    rw [mulAddDigits, Nat.ofDigits_cons, Nat.ofDigits_cons, ih]
    rw [Nat.mul_add, ← Nat.add_assoc, Nat.mod_add_div]
    ring

theorem mulAddDigits_lt {outB : Nat} (hb : 2 ≤ outB) (mul : Nat) (ds : List Nat)
    (hds : ∀ x ∈ ds, x < outB) :
    ∀ c, ∀ x ∈ mulAddDigits mul outB ds c, x < outB := by
  induction ds with
  | nil =>
    intro c x hx
    rw [mulAddDigits, natDigitsLE_eq hb] at hx
    exact Nat.digits_lt_base (by omega) hx
  | cons d rest ih =>
    intro c x hx
    rw [mulAddDigits] at hx
    rcases List.mem_cons.mp hx with h | h
    · subst h
      exact Nat.mod_lt _ (by omega)
    · exact ih (fun y hy => hds y (List.mem_cons_of_mem _ hy)) _ x h

theorem ofDigits_bxFold {outB : Nat} (hb : 2 ≤ outB) (mul : Nat) (bs : List Nat) :
    ∀ ds0, Nat.ofDigits outB (bs.foldl (fun ds c => mulAddDigits mul outB ds c) ds0) =
      bs.foldl (fun v c => mul * v + c) (Nat.ofDigits outB ds0) := by
  induction bs with
  | nil => intro ds0; rfl
  | cons b bs ih =>
    intro ds0
    rw [List.foldl_cons, List.foldl_cons, ih, ofDigits_mulAddDigits hb, Nat.add_comm]

theorem bxFold_lt {outB : Nat} (hb : 2 ≤ outB) (mul : Nat) (bs : List Nat) :
    ∀ ds0, (∀ x ∈ ds0, x < outB) →
      ∀ x ∈ bs.foldl (fun ds c => mulAddDigits mul outB ds c) ds0, x < outB := by
  induction bs with
  | nil => intro ds0 h0; exact h0
  | cons b bs ih =>
    intro ds0 h0
    rw [List.foldl_cons]
    exact ih _ (mulAddDigits_lt hb mul ds0 h0 b)

theorem foldl_mulAdd_eq_ofDigits_reverse (m : Nat) (bs : List Nat) :
    ∀ v0, bs.foldl (fun v c => m * v + c) v0 =
      v0 * m ^ bs.length + Nat.ofDigits m bs.reverse := by
  induction bs with
  | nil => intro v0; simp [Nat.ofDigits_nil]
  | cons b bs ih =>
    intro v0
    rw [List.foldl_cons, ih, List.reverse_cons, Nat.ofDigits_append, Nat.ofDigits_singleton]
    rw [List.length_cons, List.length_reverse, pow_succ]
    ring

theorem ofDigits_replicate_zero (m : Nat) : ∀ k, Nat.ofDigits m (List.replicate k 0) = 0 := by
  intro k
  induction k with
  | zero => rfl
  | succ k ih => rw [List.replicate_succ, Nat.ofDigits_cons, ih]; ring

theorem ofDigits_strip_reverse (m : Nat) (ds : List Nat) :
    Nat.ofDigits m (ds.reverse.dropWhile (fun d => d == 0)).reverse = Nat.ofDigits m ds := by
  have hzero : (ds.reverse.takeWhile (fun d => d == 0)).reverse =
      List.replicate (ds.reverse.takeWhile (fun d => d == 0)).reverse.length 0 := by
    apply List.eq_replicate_of_mem
    intro x hx
    rw [List.mem_reverse] at hx
    simpa using List.mem_takeWhile_imp hx
  calc Nat.ofDigits m (ds.reverse.dropWhile (fun d => d == 0)).reverse
      = Nat.ofDigits m (ds.reverse.dropWhile (fun d => d == 0)).reverse + (m : ℕ) ^
          (ds.reverse.dropWhile (fun d => d == 0)).reverse.length *
          Nat.ofDigits m (ds.reverse.takeWhile (fun d => d == 0)).reverse := by
        rw [hzero, ofDigits_replicate_zero]; ring
    _ = Nat.ofDigits m ((ds.reverse.dropWhile (fun d => d == 0)).reverse ++
          (ds.reverse.takeWhile (fun d => d == 0)).reverse) := (Nat.ofDigits_append).symm
    _ = Nat.ofDigits m (ds.reverse.takeWhile (fun d => d == 0) ++
          ds.reverse.dropWhile (fun d => d == 0)).reverse := by rw [List.reverse_append]
    _ = Nat.ofDigits m ds := by
        rw [List.takeWhile_append_dropWhile, List.reverse_reverse]

theorem strip_reverse_eq_digits {m : Nat} (hb : 2 ≤ m) (ds : List Nat)
    (hds : ∀ x ∈ ds, x < m) :
    ds.reverse.dropWhile (fun d => d == 0) =
      (Nat.digits m (Nat.ofDigits m ds)).reverse := by
  have w₁ : ∀ l ∈ (ds.reverse.dropWhile (fun d => d == 0)).reverse, l < m := by
    intro l hl
    apply hds
    have h1 : l ∈ ds.reverse.dropWhile (fun d => d == 0) := List.mem_reverse.mp hl
    exact List.mem_reverse.mp ((List.dropWhile_sublist _).mem h1)
  have w₂ : ∀ h : (ds.reverse.dropWhile (fun d => d == 0)).reverse ≠ [],
      (ds.reverse.dropWhile (fun d => d == 0)).reverse.getLast h ≠ 0 := by
    intro h
    have hne : ds.reverse.dropWhile (fun d => d == 0) ≠ [] := by
      intro hc; rw [hc] at h; exact h rfl
    intro hc
    have h1 := List.getLast?_reverse (ds.reverse.dropWhile (fun d => d == 0))
    rw [List.getLast?_eq_getLast _ h, List.head?_eq_head hne, hc] at h1
    have h2 := List.head_dropWhile_not (fun d => d == 0) ds.reverse hne
    rw [Option.some_inj] at h1
    rw [← h1] at h2
    simp at h2
  have hmain := Nat.digits_ofDigits m (by omega) _ w₁ w₂
  rw [ofDigits_strip_reverse] at hmain
  rw [hmain, List.reverse_reverse]

/-! ### Characterizing the radix encoder and decoder -/

theorem drop_length_takeWhile {α : Type} (p : α → Bool) :
    ∀ l : List α, l.drop (l.takeWhile p).length = l.dropWhile p := by
  intro l
  induction l with
  | nil => rfl
  | cons x t ih =>
    by_cases hx : p x
    · rw [List.takeWhile_cons, if_pos hx, List.dropWhile_cons, if_pos hx, List.length_cons,
        List.drop_succ_cons, ih]
    · rw [List.takeWhile_cons, if_neg hx, List.dropWhile_cons, if_neg hx]
      rfl

theorem takeWhile_replicate_append {α : Type} (p : α → Bool) (a : α) (hpa : p a = true)
    (l : List α) (hl : l.takeWhile p = []) :
    ∀ k, (List.replicate k a ++ l).takeWhile p = List.replicate k a := by
  intro k
  induction k with
  | zero => simpa using hl
  | succ k ih =>
    rw [List.replicate_succ, List.cons_append, List.takeWhile_cons, if_pos hpa, ih]

theorem digits_ofDigits_reverse_of_head {m : Nat} (hm : 2 ≤ m) (l : List Nat)
    (hl : ∀ x ∈ l, x < m) (hhead : ∀ hne : l ≠ [], l.head hne ≠ 0) :
    Nat.digits m (Nat.ofDigits m l.reverse) = l.reverse := by
  apply Nat.digits_ofDigits m (by omega)
  · intro x hx
    exact hl x (List.mem_reverse.mp hx)
  · intro h
    have hne : l ≠ [] := by
      intro hc; rw [hc] at h; exact h rfl
    have h1 := List.getLast?_reverse l
    rw [List.getLast?_eq_getLast _ h, List.head?_eq_head hne, Option.some_inj] at h1
    rw [h1]
    exact hhead hne

theorem takeWhile_zero_eq_replicate (src : List Nat) :
    src.takeWhile (fun b => b == 0) =
      List.replicate (src.takeWhile (fun b => b == 0)).length 0 := by
  apply List.eq_replicate_of_mem
  intro x hx
  simpa using List.mem_takeWhile_imp hx

/-- The radix encoder, in closed form: leader symbols for the leading zero
bytes, then the alphabet characters of the canonical base-`A.length` digits of
the value of the remaining bytes. -/
theorem bxEncode_eq (A : List Char) (hB : 2 ≤ A.length) (src : List Nat) :
    bxEncode A src =
      List.replicate (src.takeWhile (fun b => b == 0)).length (leaderOf A) ++
        (Nat.digits A.length
            (Nat.ofDigits 256 (src.dropWhile (fun b => b == 0)).reverse)).reverse.map
          (fun d => A.getD d (Char.ofNat 0)) := by
  by_cases hemp : src = []
  · subst hemp
    simp [bxEncode, Nat.ofDigits_nil]
  · simp only [bxEncode, if_neg hemp]
    rw [drop_length_takeWhile]
    congr 2
    rw [bxGoEncode, strip_reverse_eq_digits hB _ (bxFold_lt hB 256 _ [] (by simp)),
      ofDigits_bxFold hB, Nat.ofDigits_nil, foldl_mulAdd_eq_ofDigits_reverse]
    simp

theorem bxGoDecode_map_char (A : List Char) (hA : createOk A) :
    ∀ L : List Nat, (∀ d ∈ L, d < A.length) → ∀ ds0,
      bxGoDecode A (L.map fun d => A.getD d (Char.ofNat 0)) ds0 =
        some (L.foldl (fun ds d => mulAddDigits A.length 256 ds d) ds0) := by
  obtain ⟨hAne, hAlen, hAnd, hA256⟩ := hA
  intro L
  induction L with
  | nil => intro _ ds0; rfl
  | cons d L ih =>
    intro hL ds0
    have hd : d < A.length := hL d (List.mem_cons_self d L)
    have hget : A.getD d (Char.ofNat 0) = A[d] := List.getD_eq_getElem A _ hd
    have hmem : A[d] ∈ A := List.getElem_mem hd
    rw [List.map_cons, bxGoDecode, hget]
    have hlook : baseMapLookup A A[d] = .valid d := by
      rw [baseMapLookup, if_pos (hA256 _ hmem), if_pos hmem, List.indexOf_getElem hAnd d hd]
    rw [hlook]
    exact ih (fun x hx => hL x (List.mem_cons_of_mem _ hx)) _

/-- Round trip of the radix layer: `decodeUnsafe (encode src) = src` for every
byte sequence over an accepted alphabet of at least two symbols. -/
theorem bx_roundtrip_raw (A : List Char) (hA : createOk A) (hB : 2 ≤ A.length)
    (src : List Nat) (hsrc : ∀ x ∈ src, x < 256) :
    bxDecodeRaw A (bxEncode A src) = some src := by
  obtain ⟨hAne, hAlen, hAnd, hA256⟩ := hA
  by_cases hemp : src = []
  · subst hemp
    simp [bxEncode, bxDecodeRaw]
  · have henc := bxEncode_eq A hB src
    set k := (src.takeWhile (fun b => b == 0)).length with hkdef
    set rest := src.dropWhile (fun b => b == 0) with hrestdef
    set N := Nat.ofDigits 256 rest.reverse with hNdef
    have hsrceq : src = List.replicate k 0 ++ rest := by
      conv_lhs => rw [← List.takeWhile_append_dropWhile (fun b => b == 0) src]
      rw [← hrestdef, hkdef, ← takeWhile_zero_eq_replicate]
    have hrestlt : ∀ x ∈ rest, x < 256 := fun x hx =>
      hsrc x ((List.dropWhile_sublist _).mem hx)
    have hd256 : Nat.digits 256 N = rest.reverse := by
      apply digits_ofDigits_reverse_of_head (by omega) _ hrestlt
      intro hne hc
      have hh := List.head_dropWhile_not (fun b => b == 0) src hne
      rw [hc] at hh
      simp at hh
    by_cases hrest : rest = []
    · -- all of src is zero bytes
      rw [hrest, List.append_nil] at hsrceq
      have hk : k ≠ 0 := by
        intro h0
        rw [h0] at hsrceq
        exact hemp (by simpa using hsrceq)
      have hN00 : N = 0 := by
        rw [hNdef, hrest, List.reverse_nil, Nat.ofDigits_nil]
      have hdrop : List.drop k (List.replicate k (leaderOf A)) = [] :=
        List.drop_eq_nil_of_le (by simp)
      have hall : (List.replicate k (leaderOf A)).takeWhile (fun c => c == leaderOf A) =
          List.replicate k (leaderOf A) := by
        apply List.takeWhile_eq_self_iff.mpr
        intro x hx
        rw [List.eq_of_mem_replicate hx]
        simp
      rw [henc, hN00, Nat.digits_zero, List.reverse_nil, List.map_nil, List.append_nil]
      rw [bxDecodeRaw, if_neg (by simp [hk] : ¬(List.replicate k (leaderOf A) = []))]
      simp only [hall, List.length_replicate, hdrop, bxGoDecode, List.reverse_nil,
        List.dropWhile_nil, List.append_nil]
      rw [← hsrceq]
    · -- a nonzero byte exists
      have hN0 : N ≠ 0 := by
        intro hc
        rw [hc, Nat.digits_zero] at hd256
        exact hrest (by simpa using hd256.symm)
      have hLne : (Nat.digits A.length N).reverse ≠ [] := by
        simpa using Nat.digits_ne_nil_iff_ne_zero.mpr hN0
      have hLlt : ∀ d ∈ Nat.digits A.length N, d < A.length :=
        fun d hd => Nat.digits_lt_base (by omega) hd
      obtain ⟨d0, L', hL⟩ := List.exists_cons_of_ne_nil hLne
      have hd0mem : d0 ∈ Nat.digits A.length N := by
        rw [← List.mem_reverse, hL]
        exact List.mem_cons_self _ _
      have hd0lt : d0 < A.length := hLlt d0 hd0mem
      have hd0ne : d0 ≠ 0 := by
        have hlast := Nat.getLast_digit_ne_zero A.length hN0
        rw [List.getLast_eq_head_reverse] at hlast
        intro hc
        apply hlast
        simp only [hL, List.head_cons, hc]
      have hcne : A.getD d0 (Char.ofNat 0) ≠ leaderOf A := by
        have hget : A.getD d0 (Char.ofNat 0) = A[d0] := List.getD_eq_getElem A _ hd0lt
        have hlead : leaderOf A = getElem A 0 (List.length_pos.mpr hAne) := by
          rw [leaderOf, List.headD_eq_head?_getD, List.head?_eq_head hAne, Option.getD_some,
            List.head_eq_getElem]
        rw [hget, hlead]
        intro hc
        exact hd0ne (hAnd.getElem_inj_iff.mp hc)
      -- the encoded string and its pieces
      rw [henc, hL, List.map_cons]
      have hsne : ¬(List.replicate k (leaderOf A) ++
          (A.getD d0 (Char.ofNat 0) :: L'.map fun d => A.getD d (Char.ofNat 0)) = []) := by
        simp
      have htake : (List.replicate k (leaderOf A) ++
          (A.getD d0 (Char.ofNat 0) :: L'.map fun d => A.getD d (Char.ofNat 0))).takeWhile
            (fun c => c == leaderOf A) = List.replicate k (leaderOf A) := by
        apply takeWhile_replicate_append _ _ (by simp)
        rw [List.takeWhile_cons, if_neg (by simpa using hcne)]
      have hLlt' : ∀ d ∈ (Nat.digits A.length N).reverse, d < A.length :=
        fun d hd => hLlt d (List.mem_reverse.mp hd)
      rw [hL] at hLlt'
      have hgo := bxGoDecode_map_char A ⟨hAne, hAlen, hAnd, hA256⟩ (d0 :: L') hLlt' []
      have hstrip : (((d0 :: L').foldl (fun ds d => mulAddDigits A.length 256 ds d)
          []).reverse.dropWhile fun d => d == 0) = rest := by
        rw [strip_reverse_eq_digits (by omega : 2 ≤ 256) _
          (bxFold_lt (by omega) _ _ [] (by simp))]
        rw [ofDigits_bxFold (by omega), Nat.ofDigits_nil, foldl_mulAdd_eq_ofDigits_reverse,
          ← hL, List.reverse_reverse, Nat.ofDigits_digits]
        rw [Nat.zero_mul, Nat.zero_add, hd256, List.reverse_reverse]
      rw [List.map_cons] at hgo
      rw [bxDecodeRaw, if_neg hsne]
      simp only [htake, List.length_replicate,
        List.drop_left' (List.length_replicate k (leaderOf A)), hgo, hstrip]
      rw [← hsrceq]

theorem leaderOf_mem (A : List Char) (hAne : A ≠ []) : leaderOf A ∈ A := by
  rw [leaderOf, List.headD_eq_head?_getD, List.head?_eq_head hAne, Option.getD_some]
  exact List.head_mem hAne

/-- The big-endian digit list of a nonzero value starts with a nonzero digit
below the base, whose alphabet character is therefore not the leader. -/
theorem digitsBE_head_ne_leader (A : List Char) (hA : createOk A) (hB : 2 ≤ A.length)
    (N : Nat) (hN : N ≠ 0) :
    ∃ d0 L', (Nat.digits A.length N).reverse = d0 :: L' ∧ d0 < A.length ∧ d0 ≠ 0 ∧
      A.getD d0 (Char.ofNat 0) ≠ leaderOf A := by
  obtain ⟨hAne, hAlen, hAnd, hA256⟩ := hA
  have hLne : (Nat.digits A.length N).reverse ≠ [] := by
    simpa using Nat.digits_ne_nil_iff_ne_zero.mpr hN
  obtain ⟨d0, L', hL⟩ := List.exists_cons_of_ne_nil hLne
  have hd0mem : d0 ∈ Nat.digits A.length N := by
    rw [← List.mem_reverse, hL]
    exact List.mem_cons_self _ _
  have hd0lt : d0 < A.length := Nat.digits_lt_base (by omega) hd0mem
  have hd0ne : d0 ≠ 0 := by
    have hlast := Nat.getLast_digit_ne_zero A.length hN
    rw [List.getLast_eq_head_reverse] at hlast
    intro hc
    apply hlast
    simp only [hL, List.head_cons, hc]
  refine ⟨d0, L', hL, hd0lt, hd0ne, ?_⟩
  have hget : A.getD d0 (Char.ofNat 0) = A[d0] := List.getD_eq_getElem A _ hd0lt
  have hlead : leaderOf A = getElem A 0 (List.length_pos.mpr hAne) := by
    rw [leaderOf, List.headD_eq_head?_getD, List.head?_eq_head hAne, Option.getD_some,
      List.head_eq_getElem]
  rw [hget, hlead]
  intro hc
  exact hd0ne (hAnd.getElem_inj_iff.mp hc)

theorem bxGoDecode_eq_none_iff (A : List Char) :
    ∀ cs : List Char, (∀ c ∈ cs, c.toNat < 256) → ∀ ds0,
      (bxGoDecode A cs ds0 = none ↔ ∃ c ∈ cs, c ∉ A) := by
  intro cs
  induction cs with
  | nil =>
    intro _ ds0
    simp [bxGoDecode]
  | cons c cs ih =>
    intro h256 ds0
    have hc256 : c.toNat < 256 := h256 c (List.mem_cons_self _ _)
    simp only [bxGoDecode, baseMapLookup, if_pos hc256]
    by_cases hmem : c ∈ A
    · rw [if_pos hmem]
      rw [ih (fun x hx => h256 x (List.mem_cons_of_mem _ hx)) _]
      constructor
      · rintro ⟨x, hx, hxa⟩
        exact ⟨x, List.mem_cons_of_mem _ hx, hxa⟩
      · rintro ⟨x, hx, hxa⟩
        rcases List.mem_cons.mp hx with rfl | hx'
        · exact absurd hmem hxa
        · exact ⟨x, hx', hxa⟩
    · rw [if_neg hmem]
      constructor
      · intro _
        exact ⟨c, List.mem_cons_self _ _, hmem⟩
      · intro _
        rfl

/-! ### Claims about the radix codec -/

/-- C1: for every byte sequence (empty, all-zero and leading-zero sequences
included), decoding the encoding over an alphabet accepted by `createEncoder`
with at least two symbols returns exactly the original bytes. -/
theorem C1_radix_roundtrip (A : List Char) (hA : createOk A) (hB : 2 ≤ A.length)
    (b : List Nat) (hb : ∀ x ∈ b, x < 256) :
    bxDecode A (bxEncode A b) = .ok b := by
  rw [bxDecode, bx_roundtrip_raw A hA hB b hb]

theorem C1_witness :
    createOk base58Alphabet ∧ 2 ≤ base58Alphabet.length ∧
      (∀ x ∈ [0, 0, 1, 255], x < 256) ∧
      bxDecode base58Alphabet (bxEncode base58Alphabet [0, 0, 1, 255]) = .ok [0, 0, 1, 255] :=
  ⟨by decide, by decide, by decide,
    C1_radix_roundtrip base58Alphabet (by decide) (by decide) [0, 0, 1, 255] (by decide)⟩

/-- C3: encoding a byte sequence with exactly `k` leading zero bytes followed
by a nonzero byte yields a string that begins with exactly `k` leader symbols:
the `(k+1)`-th output symbol exists and is not the leader (the digit part
carries no extraneous leading zero digit). -/
theorem C3_leading_zeros (A : List Char) (hA : createOk A) (hB : 2 ≤ A.length)
    (k : Nat) (b : Nat) (t : List Nat) (hb0 : b ≠ 0)
    (hbytes : ∀ x ∈ List.replicate k 0 ++ b :: t, x < 256) :
    ∃ c cs, bxEncode A (List.replicate k 0 ++ b :: t) =
      List.replicate k (leaderOf A) ++ c :: cs ∧ c ≠ leaderOf A := by
  have htake : (List.replicate k 0 ++ b :: t).takeWhile (fun x => x == 0) =
      List.replicate k 0 := by
    apply takeWhile_replicate_append _ _ (by simp)
    rw [List.takeWhile_cons, if_neg (by simpa using hb0)]
  have hdropw : (List.replicate k 0 ++ b :: t).dropWhile (fun x => x == 0) = b :: t := by
    rw [← drop_length_takeWhile, htake, List.length_replicate,
      List.drop_left' (List.length_replicate k 0)]
  have hlt : ∀ x ∈ b :: t, x < 256 := by
    intro x hx
    exact hbytes x (List.mem_append_right _ hx)
  have hd256 : Nat.digits 256 (Nat.ofDigits 256 (b :: t).reverse) = (b :: t).reverse := by
    apply digits_ofDigits_reverse_of_head (by omega) _ hlt
    intro _ hc
    rw [List.head_cons] at hc
    exact hb0 hc
  have hN0 : Nat.ofDigits 256 (b :: t).reverse ≠ 0 := by
    intro hc
    rw [hc, Nat.digits_zero] at hd256
    exact absurd hd256.symm (by simp)
  obtain ⟨d0, L', hL, _, _, hcne⟩ :=
    digitsBE_head_ne_leader A hA hB (Nat.ofDigits 256 (b :: t).reverse) hN0
  refine ⟨A.getD d0 (Char.ofNat 0), L'.map fun d => A.getD d (Char.ofNat 0), ?_, hcne⟩
  rw [bxEncode_eq A hB, htake, List.length_replicate, hdropw, hL, List.map_cons]

theorem C3_witness :
    createOk base58Alphabet ∧ 2 ≤ base58Alphabet.length ∧ (255 : Nat) ≠ 0 ∧
      (∀ x ∈ List.replicate 2 0 ++ 255 :: [7], x < 256) ∧
      ∃ c cs, bxEncode base58Alphabet (List.replicate 2 0 ++ 255 :: [7]) =
        List.replicate 2 (leaderOf base58Alphabet) ++ c :: cs ∧
        c ≠ leaderOf base58Alphabet :=
  ⟨by decide, by decide, by decide, by decide,
    C3_leading_zeros base58Alphabet (by decide) (by decide) 2 255 [7] (by decide) (by decide)⟩

/-- C8 (amended): restricted to strings whose characters all have code points
below 256, decodeUnsafe returns absent exactly when some character of the
string is outside the configured alphabet, decode fails with DecodeError
exactly when decodeUnsafe returns absent, and the empty string decodes to the
empty byte sequence.  (The restriction is forced: a character with code point
256 or above reads `undefined` from the 256-entry reverse table, which is not
the 255 invalid-sentinel, so such characters are NaN-processed instead of
making the decoder return absent.) -/
theorem C8_amended (A : List Char) (hA : createOk A) (s : List Char)
    (h256 : ∀ c ∈ s, c.toNat < 256) :
    (bxDecodeRaw A s = none ↔ ∃ c ∈ s, c ∉ A) ∧
      (bxDecode A s = .error .nonBaseChar ↔ bxDecodeRaw A s = none) ∧
      (∀ r, bxDecode A s = .ok r ↔ bxDecodeRaw A s = some r) ∧
      bxDecodeRaw A [] = some [] := by
  obtain ⟨hAne, hAlen, hAnd, hA256⟩ := hA
  refine ⟨?_, ?_, ?_, by simp [bxDecodeRaw]⟩
  · by_cases hemp : s = []
    · subst hemp
      simp [bxDecodeRaw]
    · rw [bxDecodeRaw, if_neg hemp]
      have hgo := bxGoDecode_eq_none_iff A
        (s.drop (s.takeWhile (fun c => c == leaderOf A)).length)
        (fun c hc => h256 c (List.mem_of_mem_drop hc)) []
      cases hx : bxGoDecode A (s.drop (s.takeWhile (fun c => c == leaderOf A)).length) [] with
      | none =>
        rw [hx] at hgo
        have hex := hgo.mp rfl
        obtain ⟨c, hc, hca⟩ := hex
        simp only [hx]
        constructor
        · intro _
          exact ⟨c, List.mem_of_mem_drop hc, hca⟩
        · intro _
          trivial
      | some ds =>
        rw [hx] at hgo
        simp only [hx]
        constructor
        · intro hc
          simp at hc
        · rintro ⟨c, hc, hca⟩
          exfalso
          have hcd : c ∈ s.drop (s.takeWhile (fun c => c == leaderOf A)).length := by
            rw [drop_length_takeWhile]
            rcases List.mem_append.mp
              ((List.takeWhile_append_dropWhile (fun c => c == leaderOf A) s) ▸ hc) with h | h
            · exfalso
              apply hca
              have h2 := List.mem_takeWhile_imp h
              rw [show c = leaderOf A from by simpa using h2]
              exact leaderOf_mem A hAne
            · exact h
          have hcontra := hgo.mpr ⟨c, hcd, hca⟩
          simp at hcontra
  · rw [bxDecode]
    cases hx : bxDecodeRaw A s <;> simp [hx]
  · intro r
    rw [bxDecode]
    cases hx : bxDecodeRaw A s <;> simp [hx]

theorem C8_witness :
    createOk base58Alphabet ∧ (∀ c ∈ ['1', '!'], c.toNat < 256) ∧
      (bxDecodeRaw base58Alphabet ['1', '!'] = none ↔
        ∃ c ∈ ['1', '!'], c ∉ base58Alphabet) ∧
      (bxDecode base58Alphabet ['1', '!'] = .error .nonBaseChar ↔
        bxDecodeRaw base58Alphabet ['1', '!'] = none) :=
  ⟨by decide, by decide,
    (C8_amended base58Alphabet (by decide) ['1', '!'] (by decide)).1,
    (C8_amended base58Alphabet (by decide) ['1', '!'] (by decide)).2.1⟩

/-- C8 counterexample: the euro sign (code point 8364) is not a symbol of the
default alphabet, yet decodeUnsafe does not return absent on the one-character
string made of it: the BASE_MAP read at index 8364 is `undefined` rather than
the 255 sentinel, so the character is NaN-processed and an (empty) byte array
is returned. -/
theorem C8_counterexample :
    Char.ofNat 8364 ∉ base58Alphabet ∧
      bxDecodeRaw base58Alphabet [Char.ofNat 8364] = some [] := by
  constructor
  · decide
  · decide

/-! ### Hex conversion round trips -/

/-- Characters that `uint8ArrayToHex` can produce: decimal digits and
lowercase `a`-`f`. -/
def isLoHexChar (c : Char) : Prop :=
  (48 ≤ c.toNat ∧ c.toNat ≤ 57) ∨ (97 ≤ c.toNat ∧ c.toNat ≤ 102)

instance decidableIsLoHexChar (c : Char) : Decidable (isLoHexChar c) := by
  unfold isLoHexChar
  infer_instance

theorem toNat_ofNat_of_lt {n : Nat} (h : n < 55296) : (Char.ofNat n).toNat = n := by
  have hv : n.isValidChar := Or.inl h
  rw [Char.ofNat, dif_pos hv]
  rfl

theorem hexDigitChar_toNat {n : Nat} (h : n < 16) :
    (hexDigitChar n).toNat = if n < 10 then 48 + n else 87 + n := by
  rw [hexDigitChar]
  by_cases h10 : n < 10
  · rw [if_pos h10, if_pos h10, toNat_ofNat_of_lt (by omega)]
  · rw [if_neg h10, if_neg h10, toNat_ofNat_of_lt (by omega)]

theorem isLoHexChar_hexDigitChar {n : Nat} (h : n < 16) : isLoHexChar (hexDigitChar n) := by
  unfold isLoHexChar
  rw [hexDigitChar_toNat h]
  by_cases h10 : n < 10
  · rw [if_pos h10]; omega
  · rw [if_neg h10]; omega

theorem hexVal_hexDigitChar {n : Nat} (h : n < 16) : hexVal (hexDigitChar n) = some n := by
  rw [hexVal, hexDigitChar_toNat h]
  by_cases h10 : n < 10
  · rw [if_pos h10, if_pos (by omega)]
    congr 1
    omega
  · rw [if_neg h10, if_neg (by omega), if_pos (by omega)]
    congr 1
    omega

theorem hexDigitChar_of_isLoHex (c : Char) (h : isLoHexChar c) :
    ∃ n, n < 16 ∧ hexVal c = some n ∧ hexDigitChar n = c := by
  rcases h with ⟨h1, h2⟩ | ⟨h1, h2⟩
  · refine ⟨c.toNat - 48, by omega, ?_, ?_⟩
    · rw [hexVal, if_pos ⟨h1, h2⟩]
    · rw [hexDigitChar, if_pos (by omega),
        show 48 + (c.toNat - 48) = c.toNat from by omega, Char.ofNat_toNat]
  · refine ⟨c.toNat - 87, by omega, ?_, ?_⟩
    · rw [hexVal, if_neg (by omega), if_pos ⟨h1, h2⟩]
    · rw [hexDigitChar, if_neg (by omega),
        show 87 + (c.toNat - 87) = c.toNat from by omega, Char.ofNat_toNat]

theorem hexVal_lt (c : Char) : ∀ n, hexVal c = some n → n < 16 := by
  intro n h
  rw [hexVal] at h
  by_cases h1 : 48 ≤ c.toNat ∧ c.toNat ≤ 57
  · rw [if_pos h1, Option.some_inj] at h
    omega
  · rw [if_neg h1] at h
    by_cases h2 : 97 ≤ c.toNat ∧ c.toNat ≤ 102
    · rw [if_pos h2, Option.some_inj] at h
      omega
    · rw [if_neg h2] at h
      by_cases h3 : 65 ≤ c.toNat ∧ c.toNat ≤ 70
      · rw [if_pos h3, Option.some_inj] at h
        omega
      · rw [if_neg h3] at h
        cases h

theorem parsePair_lt (a b : Char) : parsePair a b < 256 := by
  rw [parsePair]
  split
  · rename_i x y hx hy
    have h1 := hexVal_lt a x hx
    have h2 := hexVal_lt b y hy
    omega
  · rename_i x hx _
    have h1 := hexVal_lt a x hx
    omega
  · omega

theorem u8ToHex_cons (b : Nat) (u : List Nat) :
    u8ToHex (b :: u) = byteToHex b ++ u8ToHex u := by
  rw [u8ToHex, List.map_cons, List.flatten_cons]
  rfl

theorem u8ToHex_append (u v : List Nat) : u8ToHex (u ++ v) = u8ToHex u ++ u8ToHex v := by
  rw [u8ToHex, u8ToHex, u8ToHex, List.map_append, List.flatten_append]

theorem u8ToHex_length (u : List Nat) : (u8ToHex u).length = 2 * u.length := by
  induction u with
  | nil => rfl
  | cons b u ih =>
    rw [u8ToHex_cons, List.length_append, ih, byteToHex, List.length_cons, List.length_cons,
      List.length_nil, List.length_cons]
    omega

theorem u8ToHex_loHex (u : List Nat) (hu : ∀ b ∈ u, b < 256) :
    ∀ c ∈ u8ToHex u, isLoHexChar c := by
  induction u with
  | nil => intro c hc; cases hc
  | cons b u ih =>
    intro c hc
    have hb : b < 256 := hu b (List.mem_cons_self _ _)
    rw [u8ToHex_cons] at hc
    rcases List.mem_append.mp hc with h | h
    · rw [byteToHex] at h
      rcases List.mem_cons.mp h with rfl | h2
      · exact isLoHexChar_hexDigitChar (by omega)
      · rcases List.mem_cons.mp h2 with rfl | h3
        · exact isLoHexChar_hexDigitChar (Nat.mod_lt _ (by omega))
        · cases h3
    · exact ih (fun x hx => hu x (List.mem_cons_of_mem _ hx)) c h

theorem parsePair_byteToHex {b : Nat} (hb : b < 256) :
    parsePair (hexDigitChar (b / 16)) (hexDigitChar (b % 16)) = b := by
  rw [parsePair, hexVal_hexDigitChar (by omega), hexVal_hexDigitChar (Nat.mod_lt _ (by omega))]
  show 16 * (b / 16) + b % 16 = b
  omega

theorem hexToU8_u8ToHex (u : List Nat) (hu : ∀ b ∈ u, b < 256) :
    hexToU8 (u8ToHex u) = u := by
  induction u with
  | nil => rfl
  | cons b u ih =>
    have hb : b < 256 := hu b (List.mem_cons_self _ _)
    rw [u8ToHex_cons, byteToHex, List.cons_append, List.cons_append, List.nil_append, hexToU8,
      parsePair_byteToHex hb, ih (fun x hx => hu x (List.mem_cons_of_mem _ hx))]

theorem u8ToHex_hexToU8 : ∀ h : List Char, h.length % 2 = 0 → (∀ c ∈ h, isLoHexChar c) →
    u8ToHex (hexToU8 h) = h
  | [], _, _ => rfl
  | [a], hlen, _ => by simp at hlen
  | a :: b :: rest, hlen, hmem => by
    obtain ⟨x, hx16, hxa, hxc⟩ := hexDigitChar_of_isLoHex a (hmem a (by simp))
    obtain ⟨y, hy16, hya, hyc⟩ := hexDigitChar_of_isLoHex b (hmem b (by simp))
    have hpp : parsePair a b = 16 * x + y := by
      rw [parsePair, hxa, hya]
    rw [hexToU8, u8ToHex_cons, hpp, byteToHex,
      show (16 * x + y) / 16 = x from by omega, show (16 * x + y) % 16 = y from by omega,
      hxc, hyc,
      u8ToHex_hexToU8 rest (by simp only [List.length_cons] at hlen; omega)
        (fun c hc => hmem c (List.mem_cons_of_mem _ (List.mem_cons_of_mem _ hc)))]
    rfl

theorem hexToU8_lt (h : List Char) : ∀ x ∈ hexToU8 h, x < 256 := by
  induction h using hexToU8.induct with
  | case1 a b rest ih =>
    intro x hx
    rw [hexToU8] at hx
    rcases List.mem_cons.mp hx with rfl | h2
    · exact parsePair_lt a b
    · exact ih x h2
  | case2 h hne =>
    intro x hx
    rcases h with _ | ⟨a, _ | ⟨b, t⟩⟩
    · cases hx
    · cases hx
    · exact absurd rfl (hne a b t)

theorem hexToU8_length : ∀ h : List Char, h.length % 2 = 0 →
    (hexToU8 h).length = h.length / 2
  | [], _ => rfl
  | [a], hlen => by simp at hlen
  | a :: b :: rest, hlen => by
    rw [hexToU8, List.length_cons, hexToU8_length rest
      (by simp only [List.length_cons] at hlen; omega)]
    simp only [List.length_cons]
    omega

theorem hexToU8_append : ∀ h1 : List Char, h1.length % 2 = 0 → ∀ h2 : List Char,
    hexToU8 (h1 ++ h2) = hexToU8 h1 ++ hexToU8 h2
  | [], _, h2 => rfl
  | [a], hlen, _ => by simp at hlen
  | a :: b :: rest, hlen, h2 => by
    rw [List.cons_append, List.cons_append, hexToU8, hexToU8,
      hexToU8_append rest (by simp only [List.length_cons] at hlen; omega) h2, List.cons_append]

/-! ### Reduction helpers for the Except monad -/

theorem ebind_ok {ε α β : Type} (a : α) (f : α → Except ε β) :
    (Except.ok a >>= f) = f a := rfl

theorem ebind_error {ε α β : Type} (e : ε) (f : α → Except ε β) :
    ((Except.error e : Except ε α) >>= f) = Except.error e := rfl

theorem emap_ok {ε α β : Type} (f : α → β) (a : α) :
    Except.map f (Except.ok a : Except ε α) = Except.ok (f a) := rfl

theorem emap_error {ε α β : Type} (f : α → β) (e : ε) :
    Except.map f (Except.error e : Except ε α) = Except.error e := rfl

/-! ### Claims about the key codec -/

/-- C4: decodeHex raises the unrecognized-version error when neither the
2-hex-char prefix matches one of the two 1-byte versions nor the 8-hex-char
prefix matches one of the two extended-key versions; when the 2-char prefix
matches, any total length other than 50, 74 or 76 hex chars (25, 37, 38
bytes) raises the length error; extended-key matches bypass the length check
and always decode. -/
theorem C4_decode_validation (o : B58COpts) (addr : List Char)
    (hp2 : o.privateKeyVersion.length = 2) (hx8 : o.xprvVersion.length = 8) :
    (addr.take 2 ≠ o.pubKeyHashVersion → addr.take 2 ≠ o.privateKeyVersion →
      addr.take 8 ≠ o.xpubVersion → addr.take 8 ≠ o.xprvVersion →
      b58cDecodeHex o addr = .error .unrecognizedVersion) ∧
    ((addr.take 2 = o.pubKeyHashVersion ∨ addr.take 2 = o.privateKeyVersion) →
      addr.length ≠ 50 → addr.length ≠ 74 → addr.length ≠ 76 →
      b58cDecodeHex o addr = .error .badLength) ∧
    (addr.take 2 ≠ o.pubKeyHashVersion → addr.take 2 ≠ o.privateKeyVersion →
      (addr.take 8 = o.xpubVersion ∨ addr.take 8 = o.xprvVersion) →
      (b58cDecodeHex o addr).toOption.isSome = true) := by
  refine ⟨?_, ?_, ?_⟩
  · intro h1 h2 h3 h4
    simp only [b58cDecodeHex, hp2, hx8]
    rw [if_neg (by push_neg; exact ⟨h1, h2⟩), if_neg (by push_neg; exact ⟨h3, h4⟩)]
  · intro hv h50 h74 h76
    rcases hv with hv | hv <;>
      simp [b58cDecodeHex, hp2, hv, h50, h74, h76]
  · intro h1 h2 hx
    have hnot : ¬(addr.take o.privateKeyVersion.length = o.pubKeyHashVersion ∨
        addr.take o.privateKeyVersion.length = o.privateKeyVersion) := by
      rw [hp2]
      push_neg
      exact ⟨h1, h2⟩
    rcases hx with hx | hx <;>
    · simp only [b58cDecodeHex, hx8]
      rw [if_neg hnot]
      simp only [hx, true_or, or_true, if_pos]
      simp only [Bool.true_eq_false, and_false, if_false]
      split
      · simp [Except.toOption]
      · (try split) <;> simp [Except.toOption]

theorem C4_witness :
    (defaultOpts.privateKeyVersion.length = 2 ∧ defaultOpts.xprvVersion.length = 8) ∧
      (['a', 'b', 'c'].take 2 = defaultOpts.pubKeyHashVersion ∨
        ['a', 'b', 'c'].take 2 = defaultOpts.privateKeyVersion → False) ∧
      b58cDecodeHex defaultOpts ['a', 'b', 'c'] = .error .unrecognizedVersion := by
  refine ⟨⟨by decide, by decide⟩, by decide, ?_⟩
  exact (C4_decode_validation defaultOpts ['a', 'b', 'c'] (by decide) (by decide)).1
    (by decide) (by decide) (by decide) (by decide)

/-- C10 (implicit): a 50-hex-char input whose prefix matches any configured
version tag (the two 1-byte tags via its first 2 chars, or the two 4-byte
extended tags via its first 8 chars) always decodes to a record with the
pubKeyHash field set: the 25-byte length alone decides the classification,
before the private-key and extended-key dispatch. -/
theorem C10_fifty_hex_pubkeyhash (o : B58COpts) (addr : List Char)
    (hp2 : o.privateKeyVersion.length = 2) (hx8 : o.xprvVersion.length = 8)
    (h50 : addr.length = 50)
    (hmatch : (addr.take 2 = o.pubKeyHashVersion ∨ addr.take 2 = o.privateKeyVersion) ∨
      (addr.take 8 = o.xpubVersion ∨ addr.take 8 = o.xprvVersion)) :
    ∃ p : Parts, b58cDecodeHex o addr = .ok p ∧ p.pubKeyHash.isSome = true ∧
      p.privateKey = none ∧ p.xprv = none ∧ p.xpub = none := by
  by_cases hv : addr.take 2 = o.pubKeyHashVersion ∨ addr.take 2 = o.privateKeyVersion
  · rcases hv with hv | hv
    · exact ⟨{ version := some o.pubKeyHashVersion,
               pubKeyHash := some ((addr.take 42).drop o.pubKeyHashVersion.length),
               check := some (addr.drop 42) },
        by simp [b58cDecodeHex, hp2, hv, h50], rfl, rfl, rfl, rfl⟩
    · exact ⟨{ version := some o.privateKeyVersion,
               pubKeyHash := some ((addr.take 42).drop 2),
               check := some (addr.drop 42) },
        by simp [b58cDecodeHex, hp2, hv, h50], rfl, rfl, rfl, rfl⟩
  · have hx : addr.take 8 = o.xpubVersion ∨ addr.take 8 = o.xprvVersion := by
      rcases hmatch with h | h
      · exact absurd h hv
      · exact h
    rcases hx with hx | hx
    · exact ⟨{ version := some o.xpubVersion,
               pubKeyHash := some ((addr.take 42).drop o.xpubVersion.length),
               check := some (addr.drop 42) },
        by simp [b58cDecodeHex, hp2, hx8, hv, hx, h50], rfl, rfl, rfl, rfl⟩
    · exact ⟨{ version := some o.xprvVersion,
               pubKeyHash := some ((addr.take 42).drop o.xprvVersion.length),
               check := some (addr.drop 42) },
        by simp [b58cDecodeHex, hp2, hx8, hv, hx, h50], rfl, rfl, rfl, rfl⟩

theorem C10_witness :
    (defaultOpts.privateKeyVersion.length = 2 ∧ defaultOpts.xprvVersion.length = 8) ∧
      (['c', 'c'] ++ List.replicate 48 '0').length = 50 ∧
      (['c', 'c'] ++ List.replicate 48 '0').take 2 = defaultOpts.privateKeyVersion ∧
      ∃ p : Parts, b58cDecodeHex defaultOpts (['c', 'c'] ++ List.replicate 48 '0') = .ok p ∧
        p.pubKeyHash.isSome = true ∧ p.privateKey = none ∧ p.xprv = none ∧ p.xpub = none := by
  refine ⟨⟨by decide, by decide⟩, by decide, by decide, ?_⟩
  exact C10_fifty_hex_pubkeyhash defaultOpts _ (by decide) (by decide) (by decide)
    (Or.inl (Or.inr (by decide)))

/-- A concrete stand-in for the external digest collaborator, used by the
concrete instances below. -/
def constDigest : List Nat → List Nat := fun _ => List.replicate 32 0

/-- C6 (amended): for every decodable input on which the checksum
recomputation itself succeeds, verifyHex compares the recomputed checksum
with the embedded one: on agreement the (mutated) record is returned, on
mismatch it raises ChecksumError unless the caller explicitly requested
non-throwing behavior, in which case the record is returned with its valid
field set to false.  (A decodable input whose decoded record makes the
recomputation fail — e.g. a private-key-length payload carrying the
pubKeyHash version tag — raises that recomputation error instead of either
behavior; see the counterexample.) -/
theorem C6_verify_checksum (o : B58COpts) (digest : List Nat → List Nat)
    (addr : List Char) (optVerify : Option Bool) (parts p2 : Parts) (check : List Char)
    (hdec : b58cDecodeHex o addr = .ok parts)
    (hchk : b58cChecksum o digest parts = .ok (p2, check)) :
    (p2.check = some check → b58cVerifyHex o digest addr optVerify = .ok p2) ∧
      (p2.check ≠ some check → optVerify ≠ some false →
        b58cVerifyHex o digest addr optVerify = .error .checksumMismatch) ∧
      (p2.check ≠ some check → optVerify = some false →
        b58cVerifyHex o digest addr optVerify = .ok { p2 with valid := some false }) := by
  have hbody : b58cVerifyHex o digest addr optVerify =
      if p2.check = some check then .ok p2
      else if optVerify = some false then .ok { p2 with valid := some false }
      else .error .checksumMismatch := by
    simp only [b58cVerifyHex, hdec, ebind_ok, hchk]
  refine ⟨?_, ?_, ?_⟩
  · intro h1
    rw [hbody, if_pos h1]
  · intro h1 h2
    rw [hbody, if_neg h1, if_neg h2]
  · intro h1 h2
    rw [hbody, if_neg h1, if_pos h2]

/-- A 50-hex-char input whose embedded check differs from the recomputation
under `constDigest`, with the records that decode and checksum produce on it. -/
def c6AddrW : List Char :=
  ['4', 'c'] ++ List.replicate 40 '0' ++ ['d', 'e', 'a', 'd', 'b', 'e', 'e', 'f']

def c6PartsW : Parts :=
  { version := some ['4', 'c'], pubKeyHash := some (List.replicate 40 '0'),
    check := some ['d', 'e', 'a', 'd', 'b', 'e', 'e', 'f'] }

def c6CheckW : List Char := List.replicate 8 '0'

theorem C6_witness :
    b58cDecodeHex defaultOpts c6AddrW = .ok c6PartsW ∧
      b58cChecksum defaultOpts constDigest c6PartsW =
        .ok ({ c6PartsW with compressed := some true }, c6CheckW) ∧
      ({ c6PartsW with compressed := some true } : Parts).check ≠ some c6CheckW ∧
      b58cVerifyHex defaultOpts constDigest c6AddrW none = .error .checksumMismatch ∧
      b58cVerifyHex defaultOpts constDigest c6AddrW (some false) =
        .ok { { c6PartsW with compressed := some true } with valid := some false } := by
  refine ⟨rfl, rfl, by decide, ?_, ?_⟩
  · exact (C6_verify_checksum defaultOpts constDigest c6AddrW none c6PartsW
      { c6PartsW with compressed := some true } c6CheckW rfl rfl).2.1
      (by decide) (by decide)
  · exact (C6_verify_checksum defaultOpts constDigest c6AddrW (some false) c6PartsW
      { c6PartsW with compressed := some true } c6CheckW rfl rfl).2.2
      (by decide) (by decide)

/-- A decodable 76-hex-char input carrying the pubKeyHash version tag: it
decodes to a privateKey record whose version conflicts with its key type. -/
def c6Addr : List Char :=
  ['4', 'c'] ++ List.replicate 64 '0' ++ ['0', '0'] ++
    ['d', 'e', 'a', 'd', 'b', 'e', 'e', 'f']

/-- C6 counterexample: this input is decodable, yet verifyHex neither raises
ChecksumError nor returns a valid-flagged record — the checksum recomputation
dies on the version/key-type conflict first, even though the caller explicitly
requested non-throwing behavior. -/
theorem C6_counterexample :
    (b58cDecodeHex defaultOpts c6Addr).toOption.isSome = true ∧
      b58cVerifyHex defaultOpts constDigest c6Addr (some false) =
        .error .pubVersionForPrivate := by
  constructor
  · rfl
  · rfl

/-- C9 (amended): checksum output is deterministic and depends only on the
four record fields the source reads — two records agreeing on version,
pubKeyHash, privateKey and compressed yield the very same checksum outcome —
and the codec configuration is immutable; but the operation does write to the
caller-supplied record: the post-call record differs from the input only in
its version and compressed fields, which checksum resolves and stores (all
other fields are left unchanged). -/
theorem C9_checksum_determinism_mutation (o : B58COpts) (digest : List Nat → List Nat) :
    (∀ p q : Parts, p.version = q.version → p.pubKeyHash = q.pubKeyHash →
      p.privateKey = q.privateKey → p.compressed = q.compressed →
      (b58cChecksum o digest p).map Prod.snd = (b58cChecksum o digest q).map Prod.snd) ∧
      (∀ (p p2 : Parts) (check : List Char), b58cChecksum o digest p = .ok (p2, check) →
        p2.pubKeyHash = p.pubKeyHash ∧ p2.privateKey = p.privateKey ∧
        p2.check = p.check ∧ p2.xprv = p.xprv ∧ p2.xpub = p.xpub ∧ p2.valid = p.valid) := by
  constructor
  · intro p q h1 h2 h3 h4
    rw [b58cChecksum, b58cChecksum, h1, h2, h3, h4]
    cases hc : checksumCore o digest q.version q.pubKeyHash q.privateKey q.compressed with
    | error e => rfl
    | ok r => rfl
  · intro p p2 check h
    rw [b58cChecksum] at h
    cases hc : checksumCore o digest p.version p.pubKeyHash p.privateKey p.compressed with
    | error e =>
      rw [hc] at h
      simp [emap_error] at h
    | ok r =>
      rw [hc, emap_ok] at h
      injection h with h'
      have hp2 : p2 = { p with version := r.1, compressed := some r.2.1 } :=
        (congrArg Prod.fst h').symm
      rw [hp2]
      exact ⟨rfl, rfl, rfl, rfl, rfl, rfl⟩

/-- A caller record carrying only a 32-byte private key: no version set. -/
def c9Parts : Parts := { privateKey := some (List.replicate 64 '0') }

theorem C9_witness :
    (b58cChecksum defaultOpts constDigest c9Parts).map Prod.snd =
        (b58cChecksum defaultOpts constDigest
          { c9Parts with check := some ['f', 'f'] }).map Prod.snd ∧
      ∃ p2 check, b58cChecksum defaultOpts constDigest c9Parts = .ok (p2, check) ∧
        p2.pubKeyHash = c9Parts.pubKeyHash ∧ p2.privateKey = c9Parts.privateKey ∧
        p2.check = c9Parts.check ∧ p2.xprv = c9Parts.xprv ∧ p2.xpub = c9Parts.xpub ∧
        p2.valid = c9Parts.valid := by
  constructor
  · exact (C9_checksum_determinism_mutation defaultOpts constDigest).1 c9Parts
      { c9Parts with check := some ['f', 'f'] } rfl rfl rfl rfl
  · refine ⟨_, _, rfl, ?_⟩
    exact (C9_checksum_determinism_mutation defaultOpts constDigest).2 c9Parts _ _ rfl

/-- C9 counterexample: checksum does not leave the caller-supplied record
unchanged — called on a record with no version field, the post-call state of
that record has the resolved version written into it. -/
theorem C9_counterexample :
    c9Parts.version = none ∧
      (b58cChecksum defaultOpts constDigest c9Parts).toOption.map (fun r => r.1.version) =
        some (some ['c', 'c']) := by
  constructor
  · rfl
  · rfl

/-! ### Evaluating version resolution and checksum on well-formed records -/

theorem strTruthy_none : strTruthy none = false := rfl

theorem strTruthy_of_ne_nil {s : List Char} (h : s ≠ []) : strTruthy (some s) = true := by
  cases s with
  | nil => exact absurd rfl h
  | cons c t => rfl

theorem checksumHexRaw_length (digest : List Nat → List Nat) (hd : goodDigest digest)
    (hex : List Char) : (checksumHexRaw digest hex).length = 8 := by
  rw [checksumHexRaw, u8ToHex_length, List.length_take, (hd _).1]
  rfl

theorem setVersionCore_priv (o : B58COpts) (hne : o.privateKeyVersion ≠ [])
    (hvne : o.privateKeyVersion ≠ o.pubKeyHashVersion) (version : Option (List Char))
    (hver : version = none ∨ version = some o.privateKeyVersion)
    (key : List Char) (hkey : key ≠ []) :
    setVersionCore o version none (some key) = .ok (some o.privateKeyVersion) := by
  rcases hver with rfl | rfl
  · simp [setVersionCore, strTruthy_none, strTruthy_of_ne_nil hkey]
  · simp [setVersionCore, strTruthy_none, strTruthy_of_ne_nil hkey,
      strTruthy_of_ne_nil hne, hvne]

theorem setVersionCore_pkh (o : B58COpts) (hne : o.pubKeyHashVersion ≠ [])
    (hvne : o.pubKeyHashVersion ≠ o.privateKeyVersion) (version : Option (List Char))
    (hver : version = none ∨ version = some o.pubKeyHashVersion)
    (hash : List Char) (hhash : hash ≠ []) :
    setVersionCore o version (some hash) none = .ok (some o.pubKeyHashVersion) := by
  rcases hver with rfl | rfl
  · simp [setVersionCore, strTruthy_none, strTruthy_of_ne_nil hhash]
  · simp [setVersionCore, strTruthy_none, strTruthy_of_ne_nil hhash,
      strTruthy_of_ne_nil hne, hvne]

theorem checksumCore_priv (o : B58COpts) (digest : List Nat → List Nat)
    (hne : o.privateKeyVersion ≠ []) (hvne : o.privateKeyVersion ≠ o.pubKeyHashVersion)
    (version : Option (List Char)) (hver : version = none ∨ version = some o.privateKeyVersion)
    (key : List Char) (hkey : key ≠ []) (comp : Option Bool) :
    checksumCore o digest version none (some key) comp =
      .ok (some o.privateKeyVersion, comp.getD true,
        checksumHexRaw digest (o.privateKeyVersion ++ key ++
          if comp.getD true && key.length == 64 then ['0', '1'] else [])) := by
  rw [checksumCore, setVersionCore_priv o hne hvne version hver key hkey, ebind_ok]
  simp [strTruthy_none, versionText]

theorem checksumCore_pkh (o : B58COpts) (digest : List Nat → List Nat)
    (hne : o.pubKeyHashVersion ≠ []) (hvne : o.pubKeyHashVersion ≠ o.privateKeyVersion)
    (version : Option (List Char)) (hver : version = none ∨ version = some o.pubKeyHashVersion)
    (hash : List Char) (hlen : hash.length = 40) (priv : Option (List Char)) (comp : Option Bool)
    (hpriv : priv = none) :
    checksumCore o digest version (some hash) priv comp =
      .ok (some o.pubKeyHashVersion, comp.getD true,
        checksumHexRaw digest (o.pubKeyHashVersion ++ hash)) := by
  have hhash : hash ≠ [] := by
    intro hc
    rw [hc] at hlen
    cases hlen
  subst hpriv
  rw [checksumCore, setVersionCore_pkh o hne hvne version hver hash hhash, ebind_ok]
  have h64 : (hash.length == 64) = false := by
    rw [hlen]
    rfl
  simp [strTruthy_of_ne_nil hhash, hlen, versionText, h64]

/-- C5: private keys of 33 bytes with a trailing 01 marker are accepted as-is
and force compressed = true; 32-byte keys get a 01 byte appended when
compressed is true or unset and a 00 byte when it is false, so the encoded
payload carries that marker immediately before the 4-byte (8-hex-char)
checksum; any other key shape raises the length ValidationError. -/
theorem C5_private_key_encoding (o : B58COpts) (digest : List Nat → List Nat) (p : Parts)
    (hd : goodDigest digest) (hpkh : p.pubKeyHash = none)
    (hver : p.version = none ∨ p.version = some o.privateKeyVersion)
    (hne : o.privateKeyVersion ≠ []) (hvne : o.privateKeyVersion ≠ o.pubKeyHashVersion) :
    (∀ key, p.privateKey = some key → key.length = 66 → key.drop 64 = ['0', '1'] →
      ∃ p4 check, b58cEncodePrivateKeyHex o digest p =
          .ok (p4, o.privateKeyVersion ++ key ++ check) ∧
        p4.compressed = some true ∧ check.length = 8) ∧
    (∀ key, p.privateKey = some key → key.length = 64 →
      (p.compressed = some true ∨ p.compressed = none) →
      ∃ p4 check, b58cEncodePrivateKeyHex o digest p =
          .ok (p4, o.privateKeyVersion ++ (key ++ ['0', '1']) ++ check) ∧
        check.length = 8) ∧
    (∀ key, p.privateKey = some key → key.length = 64 → p.compressed = some false →
      ∃ p4 check, b58cEncodePrivateKeyHex o digest p =
          .ok (p4, o.privateKeyVersion ++ (key ++ ['0', '0']) ++ check) ∧
        check.length = 8) ∧
    (∀ key, p.privateKey = some key → key.length ≠ 64 →
      ¬(key.length = 66 ∧ key.drop 64 = ['0', '1']) →
      b58cEncodePrivateKeyHex o digest p = .error .badPrivateKeyLength) := by
  refine ⟨?_, ?_, ?_, ?_⟩
  · intro key hkey hlen hdrop
    have hkne : key ≠ [] := by
      intro hc
      rw [hc] at hlen
      cases hlen
    refine ⟨{ p with version := some o.privateKeyVersion, compressed := some true },
      checksumHexRaw digest (o.privateKeyVersion ++ key), ?_,
      rfl, checksumHexRaw_length digest hd _⟩
    simp only [b58cEncodePrivateKeyHex, hkey, hpkh, Option.getD_some,
      b58cSetVersion, b58cChecksum]
    rw [if_pos ⟨hlen, hdrop⟩, ebind_ok]
    simp [setVersionCore_priv o hne hvne p.version hver key hkne,
      checksumCore_priv o digest hne hvne (some o.privateKeyVersion) (Or.inr rfl) key hkne
        (some true),
      emap_ok, ebind_ok, versionText, hlen, hpkh]
  · intro key hkey hlen hcomp
    have hkne : key ≠ [] := by
      intro hc
      rw [hc] at hlen
      cases hlen
    have hc1 : p.compressed.getD true = true := by
      rcases hcomp with hc | hc <;> rw [hc] <;> rfl
    refine ⟨{ p with version := some o.privateKeyVersion, compressed := some true },
      checksumHexRaw digest (o.privateKeyVersion ++ key ++ ['0', '1']), ?_,
      checksumHexRaw_length digest hd _⟩
    simp only [b58cEncodePrivateKeyHex, hkey, hpkh, Option.getD_some,
      b58cSetVersion, b58cChecksum]
    rw [if_neg (by rw [hlen]; simp), if_pos hlen, ebind_ok]
    simp [setVersionCore_priv o hne hvne p.version hver key hkne,
      checksumCore_priv o digest hne hvne (some o.privateKeyVersion) (Or.inr rfl) key hkne
        (some true),
      emap_ok, ebind_ok, versionText, hlen, hpkh, hc1]
  · intro key hkey hlen hcomp
    have hkne : key ≠ [] := by
      intro hc
      rw [hc] at hlen
      cases hlen
    refine ⟨{ p with version := some o.privateKeyVersion, compressed := some false },
      checksumHexRaw digest (o.privateKeyVersion ++ key), ?_,
      checksumHexRaw_length digest hd _⟩
    simp only [b58cEncodePrivateKeyHex, hkey, hpkh, Option.getD_some,
      b58cSetVersion, b58cChecksum]
    rw [if_neg (by rw [hlen]; simp), if_pos hlen, ebind_ok]
    simp [setVersionCore_priv o hne hvne p.version hver key hkne,
      checksumCore_priv o digest hne hvne (some o.privateKeyVersion) (Or.inr rfl) key hkne
        (some false),
      emap_ok, ebind_ok, versionText, hlen, hpkh, hcomp]
  · intro key hkey h64 h66
    simp only [b58cEncodePrivateKeyHex, hkey, Option.getD_some]
    rw [if_neg (by simpa using h66), if_neg h64, ebind_error]

theorem goodDigest_constDigest : goodDigest constDigest := by
  intro u
  constructor
  · rfl
  · intro x hx
    rw [List.eq_of_mem_replicate hx]
    omega

theorem C5_witness :
    goodDigest constDigest ∧
      ∃ p4 check, b58cEncodePrivateKeyHex defaultOpts constDigest
          { privateKey := some (List.replicate 64 '0'), compressed := some false } =
        .ok (p4, defaultOpts.privateKeyVersion ++ (List.replicate 64 '0' ++ ['0', '0']) ++
          check) ∧ check.length = 8 := by
  refine ⟨goodDigest_constDigest, ?_⟩
  exact (C5_private_key_encoding defaultOpts constDigest
      { privateKey := some (List.replicate 64 '0'), compressed := some false }
      goodDigest_constDigest rfl (Or.inl rfl) (by decide) (by decide)).2.2.1
    (List.replicate 64 '0') rfl (by decide) rfl

/-- C7 (amended): encode raises ConfigurationError when both 1-byte-key
payload fields are supplied and the pubKeyHash has its valid 40-hex-char
length, when no payload field is supplied, and when the declared version
equals the version tag of the other 1-byte key type on a well-formed payload.
Not covered by the claim as stated: a record that also carries an extended-key
payload is encoded without any exclusivity check (the xprv/xpub dispatch wins
outright; see the counterexample), and a both-keys record whose pubKeyHash
has the wrong length raises the length ValidationError before the
exclusivity check. -/
theorem C7_encode_config_errors (o : B58COpts) (A : List Char)
    (digest : List Nat → List Nat) (hpk : o.pubKeyHashVersion ≠ [])
    (hpv : o.privateKeyVersion ≠ []) :
    (∀ p hash key, p.xprv = none → p.xpub = none → p.pubKeyHash = some hash →
      hash.length = 40 → p.privateKey = some key → key ≠ [] →
      b58cEncode o A digest p = .error .bothKeys) ∧
    (∀ p : Parts, p.xprv = none → p.xpub = none → strTruthy p.pubKeyHash = false →
      strTruthy p.privateKey = false → b58cEncode o A digest p = .error .noKey) ∧
    (∀ p key, p.xprv = none → p.xpub = none → p.pubKeyHash = none →
      p.privateKey = some key →
      (key.length = 64 ∨ (key.length = 66 ∧ key.drop 64 = ['0', '1'])) →
      p.version = some o.pubKeyHashVersion →
      b58cEncode o A digest p = .error .pubVersionForPrivate) ∧
    (∀ p hash, p.xprv = none → p.xpub = none → p.privateKey = none →
      p.pubKeyHash = some hash → hash.length = 40 →
      p.version = some o.privateKeyVersion →
      b58cEncode o A digest p = .error .privVersionForPub) := by
  refine ⟨?_, ?_, ?_, ?_⟩
  · intro p hash key hx1 hx2 hpkh hlen hpriv hkne
    have hhne : hash ≠ [] := by
      intro hc
      rw [hc] at hlen
      cases hlen
    simp [b58cEncode, b58cEncodeHex, b58cEncodePubKeyHashHex, b58cSetVersion, setVersionCore,
      hx1, hx2, hpkh, hpriv, strTruthy_none, strTruthy_of_ne_nil hhne,
      strTruthy_of_ne_nil hkne, hlen, ebind_error, emap_error, Option.getD_some]
  · intro p hx1 hx2 hpk0 hpv0
    simp [b58cEncode, b58cEncodeHex, hx1, hx2, hpk0, hpv0, strTruthy_none]
  · intro p key hx1 hx2 hpkh hpriv hklen hver
    have hkne : key ≠ [] := by
      intro hc
      rcases hklen with h | ⟨h, _⟩ <;> rw [hc] at h <;> cases h
    have hbranch : b58cEncodePrivateKeyHex o digest p = .error .pubVersionForPrivate := by
      rcases hklen with h64 | ⟨h66, hdrop⟩
      · simp only [b58cEncodePrivateKeyHex, hpriv, Option.getD_some]
        rw [if_neg (by rw [h64]; simp), if_pos h64, ebind_ok]
        simp [b58cSetVersion, setVersionCore, hver, hpkh, strTruthy_none,
          strTruthy_of_ne_nil hkne, strTruthy_of_ne_nil hpk, emap_error, ebind_error]
      · simp only [b58cEncodePrivateKeyHex, hpriv, Option.getD_some]
        rw [if_pos ⟨h66, hdrop⟩, ebind_ok]
        simp [b58cSetVersion, setVersionCore, hver, hpkh, strTruthy_none,
          strTruthy_of_ne_nil hkne, strTruthy_of_ne_nil hpk, emap_error, ebind_error]
    simp [b58cEncode, b58cEncodeHex, hx1, hx2, hpkh, hpriv, strTruthy_none,
      strTruthy_of_ne_nil hkne, hbranch]
  · intro p hash hx1 hx2 hpriv hpkh hlen hver
    have hhne : hash ≠ [] := by
      intro hc
      rw [hc] at hlen
      cases hlen
    simp [b58cEncode, b58cEncodeHex, b58cEncodePubKeyHashHex, b58cSetVersion, setVersionCore,
      hx1, hx2, hpkh, hpriv, hver, hlen, strTruthy_none, strTruthy_of_ne_nil hhne,
      strTruthy_of_ne_nil hpv, ebind_error, emap_error, Option.getD_some]

theorem C7_witness :
    b58cEncode defaultOpts base58Alphabet constDigest
        { pubKeyHash := some (List.replicate 40 '0'),
          privateKey := some (List.replicate 64 '0') } = .error .bothKeys ∧
      b58cEncode defaultOpts base58Alphabet constDigest
        { privateKey := some (List.replicate 64 '0'),
          version := some defaultOpts.pubKeyHashVersion } =
        .error .pubVersionForPrivate ∧
      b58cEncode defaultOpts base58Alphabet constDigest
        { pubKeyHash := some (List.replicate 40 '0'),
          version := some defaultOpts.privateKeyVersion } =
        .error .privVersionForPub ∧
      b58cEncode defaultOpts base58Alphabet constDigest {} = .error .noKey := by
  refine ⟨?_, ?_, ?_, ?_⟩
  · exact (C7_encode_config_errors defaultOpts base58Alphabet constDigest (by decide)
      (by decide)).1 _ _ _ rfl rfl rfl (by decide) rfl (by decide)
  · exact (C7_encode_config_errors defaultOpts base58Alphabet constDigest (by decide)
      (by decide)).2.2.1 _ _ rfl rfl rfl rfl (Or.inl (by decide)) rfl
  · exact (C7_encode_config_errors defaultOpts base58Alphabet constDigest (by decide)
      (by decide)).2.2.2 _ _ rfl rfl rfl rfl (by decide) rfl
  · exact (C7_encode_config_errors defaultOpts base58Alphabet constDigest (by decide)
      (by decide)).2.1 _ rfl rfl rfl rfl

/-- A record with two payload fields set: an extended private key and a
pubKeyHash. -/
def c7Parts : Parts :=
  { xprv := some (List.replicate 2 '0'), pubKeyHash := some (List.replicate 40 '0') }

/-- C7 counterexample: a record with two payload fields set (xprv and
pubKeyHash) does not fail with ConfigurationError — the extended-key dispatch
wins before any exclusivity check and encode succeeds. -/
theorem C7_counterexample :
    c7Parts.xprv.isSome = true ∧ c7Parts.pubKeyHash.isSome = true ∧
      (b58cEncode defaultOpts base58Alphabet constDigest c7Parts).toOption.isSome = true := by
  refine ⟨rfl, rfl, ?_⟩
  rfl

/-! ### The KeyCodec round trip (C2) -/

theorem checksumHexRaw_loHex (digest : List Nat → List Nat) (hd : goodDigest digest)
    (hex : List Char) : ∀ c ∈ checksumHexRaw digest hex, isLoHexChar c := by
  rw [checksumHexRaw]
  apply u8ToHex_loHex
  intro b hb
  exact (hd _).2 b (List.mem_of_mem_take hb)

theorem b58cEncodePubKeyHashHex_eq (o : B58COpts) (digest : List Nat → List Nat)
    (p : Parts) (hash : List Char) (hpkh : p.pubKeyHash = some hash)
    (hlen : hash.length = 40) (hpriv : p.privateKey = none)
    (hver : p.version = none ∨ p.version = some o.pubKeyHashVersion)
    (hne : o.pubKeyHashVersion ≠ []) (hvne : o.pubKeyHashVersion ≠ o.privateKeyVersion) :
    b58cEncodePubKeyHashHex o digest p =
      .ok ({ p with version := some o.pubKeyHashVersion
                    compressed := some (p.compressed.getD true) },
        o.pubKeyHashVersion ++ hash ++
          checksumHexRaw digest (o.pubKeyHashVersion ++ hash)) := by
  have hhne : hash ≠ [] := by
    intro hc
    rw [hc] at hlen
    cases hlen
  simp only [b58cEncodePubKeyHashHex, hpkh, Option.getD_some, b58cSetVersion, b58cChecksum]
  rw [if_neg (by rw [hlen]; simp)]
  simp [setVersionCore_pkh o hne hvne p.version hver hash hhne,
    checksumCore_pkh o digest hne hvne (some o.pubKeyHashVersion) (Or.inr rfl) hash hlen
      none p.compressed rfl,
    emap_ok, ebind_ok, versionText, hpkh, hpriv, hlen]

/-- The radix layer composed with the hex printer is invisible around a
lowercase even-length hex string. -/
theorem b58cDecode_bxEncode_hexToU8 (o : B58COpts) (A : List Char)
    (hA : createOk A) (hB : 2 ≤ A.length) (hex : List Char)
    (heven : hex.length % 2 = 0) (hlo : ∀ c ∈ hex, isLoHexChar c) :
    b58cDecode o A (bxEncode A (hexToU8 hex)) = b58cDecodeHex o hex := by
  simp only [b58cDecode, bx_roundtrip_raw A hA hB _ (hexToU8_lt hex),
    u8ToHex_hexToU8 hex heven hlo]

theorem b58cDecodeHex_pkh_payload (o : B58COpts) (hp2 : o.pubKeyHashVersion.length = 2)
    (hpv2 : o.privateKeyVersion.length = 2) (hash chk : List Char)
    (hlen : hash.length = 40) (hchk : chk.length = 8) :
    b58cDecodeHex o (o.pubKeyHashVersion ++ hash ++ chk) =
      .ok { version := some o.pubKeyHashVersion, pubKeyHash := some hash,
            check := some chk } := by
  have htot : (o.pubKeyHashVersion ++ hash ++ chk).length = 50 := by
    simp [hp2, hlen, hchk]
  have htake2 : (o.pubKeyHashVersion ++ hash ++ chk).take 2 = o.pubKeyHashVersion := by
    rw [List.append_assoc, List.take_left' hp2]
  have hassoc : o.pubKeyHashVersion ++ hash ++ chk = (o.pubKeyHashVersion ++ hash) ++ chk := by
    rw [List.append_assoc]
  have htake42 : (o.pubKeyHashVersion ++ hash ++ chk).take 42 = o.pubKeyHashVersion ++ hash := by
    rw [hassoc, List.take_left' (by simp [hp2, hlen])]
  have hdrop42 : (o.pubKeyHashVersion ++ hash ++ chk).drop 42 = chk := by
    rw [hassoc, List.drop_left' (by simp [hp2, hlen])]
  have hdropv : (o.pubKeyHashVersion ++ hash).drop o.pubKeyHashVersion.length = hash :=
    List.drop_left _ _
  simp only [b58cDecodeHex, hpv2, htake2, htot, htake42, hdrop42]
  simp [hdropv]

theorem b58cDecodeHex_priv_payload (o : B58COpts) (hpv2 : o.privateKeyVersion.length = 2)
    (key mk chk : List Char) (hklen : key.length = 64) (hmk : mk.length = 2)
    (hchk : chk.length = 8) :
    b58cDecodeHex o (o.privateKeyVersion ++ (key ++ mk) ++ chk) =
      .ok { version := some o.privateKeyVersion, privateKey := some key,
            compressed := some (mk == ['0', '1']), check := some chk } := by
  have htot : (o.privateKeyVersion ++ (key ++ mk) ++ chk).length = 76 := by
    simp [hpv2, hklen, hmk, hchk]
  have htake2 : (o.privateKeyVersion ++ (key ++ mk) ++ chk).take 2 = o.privateKeyVersion := by
    rw [List.append_assoc, List.take_left' hpv2]
  have hassoc : o.privateKeyVersion ++ (key ++ mk) ++ chk =
      (o.privateKeyVersion ++ (key ++ mk)) ++ chk := by
    rw [List.append_assoc]
  have htake68 : (o.privateKeyVersion ++ (key ++ mk) ++ chk).take 68 =
      o.privateKeyVersion ++ (key ++ mk) := by
    rw [hassoc, List.take_left' (by simp [hpv2, hklen, hmk])]
  have hdrop68 : (o.privateKeyVersion ++ (key ++ mk) ++ chk).drop 68 = chk := by
    rw [hassoc, List.drop_left' (by simp [hpv2, hklen, hmk])]
  have hdropv : (o.privateKeyVersion ++ (key ++ mk)).drop o.privateKeyVersion.length =
      key ++ mk := List.drop_left _ _
  have htk64 : (key ++ mk).take 64 = key := List.take_left' hklen
  have hdr64 : (key ++ mk).drop 64 = mk := List.drop_left' hklen
  simp only [b58cDecodeHex, hpv2, htake2, htot, htake68, hdrop68]
  simp [hdropv, htk64, hdr64]

/-- C2: encoding then decoding a well-formed PubKeyHash record (20-byte hash
given as 40 lowercase hex chars, version unset or the configured pubKeyHash
tag) returns a record with the same hash and the same (resolved) version;
encoding then decoding a well-formed PrivateKey record (32-byte raw key as 64
lowercase hex chars, either compressed flag, version unset or the configured
privateKey tag) returns a record with the same raw key bytes and the same
compressed flag. -/
theorem C2_keycodec_roundtrip (o : B58COpts) (A : List Char)
    (digest : List Nat → List Nat) (hA : createOk A) (hB : 2 ≤ A.length)
    (hd : goodDigest digest)
    (hp2 : o.pubKeyHashVersion.length = 2) (hpv2 : o.privateKeyVersion.length = 2)
    (hplo : ∀ c ∈ o.pubKeyHashVersion, isLoHexChar c)
    (hvlo : ∀ c ∈ o.privateKeyVersion, isLoHexChar c)
    (hvne : o.pubKeyHashVersion ≠ o.privateKeyVersion) :
    (∀ p hash, p.pubKeyHash = some hash → hash.length = 40 →
      (∀ c ∈ hash, isLoHexChar c) → p.privateKey = none → p.xprv = none → p.xpub = none →
      (p.version = none ∨ p.version = some o.pubKeyHashVersion) →
      ∃ p2 s p3, b58cEncode o A digest p = .ok (p2, s) ∧ b58cDecode o A s = .ok p3 ∧
        p3.pubKeyHash = some hash ∧ p3.version = some o.pubKeyHashVersion) ∧
    (∀ p key b, p.privateKey = some key → key.length = 64 →
      (∀ c ∈ key, isLoHexChar c) → p.compressed = some b → p.pubKeyHash = none →
      p.xprv = none → p.xpub = none →
      (p.version = none ∨ p.version = some o.privateKeyVersion) →
      ∃ p2 s p3, b58cEncode o A digest p = .ok (p2, s) ∧ b58cDecode o A s = .ok p3 ∧
        p3.privateKey = some key ∧ p3.compressed = some b) := by
  have hpkne : o.pubKeyHashVersion ≠ [] := by
    intro hc
    rw [hc] at hp2
    cases hp2
  have hpvne : o.privateKeyVersion ≠ [] := by
    intro hc
    rw [hc] at hpv2
    cases hpv2
  constructor
  · intro p hash hpkh hlen hlo hpriv hx1 hx2 hver
    have hhne : hash ≠ [] := by
      intro hc
      rw [hc] at hlen
      cases hlen
    have hchklen := checksumHexRaw_length digest hd (o.pubKeyHashVersion ++ hash)
    have hexlo : ∀ c ∈ o.pubKeyHashVersion ++ hash ++
        checksumHexRaw digest (o.pubKeyHashVersion ++ hash), isLoHexChar c := by
      intro c hc
      rcases List.mem_append.mp hc with h | h
      · rcases List.mem_append.mp h with h2 | h2
        · exact hplo c h2
        · exact hlo c h2
      · exact checksumHexRaw_loHex digest hd _ c h
    have hexev : (o.pubKeyHashVersion ++ hash ++
        checksumHexRaw digest (o.pubKeyHashVersion ++ hash)).length % 2 = 0 := by
      simp [hp2, hlen, hchklen]
    have hencPKH := b58cEncodePubKeyHashHex_eq o digest p hash hpkh hlen hpriv hver
      hpkne hvne
    refine ⟨{ p with version := some o.pubKeyHashVersion
                     compressed := some (p.compressed.getD true) },
      bxEncode A (hexToU8 (o.pubKeyHashVersion ++ hash ++
        checksumHexRaw digest (o.pubKeyHashVersion ++ hash))),
      { version := some o.pubKeyHashVersion, pubKeyHash := some hash,
        check := some (checksumHexRaw digest (o.pubKeyHashVersion ++ hash)) },
      ?_, ?_, rfl, rfl⟩
    · simp [b58cEncode, hx1, hx2, strTruthy_none, b58cEncodeHex, hpkh,
        strTruthy_of_ne_nil hhne, hencPKH]
    · rw [b58cDecode_bxEncode_hexToU8 o A hA hB _ hexev hexlo,
        b58cDecodeHex_pkh_payload o hp2 hpv2 hash _ hlen hchklen]
  · intro p key b hkey hlen hlo hcomp hpkh hx1 hx2 hver
    have hkne : key ≠ [] := by
      intro hc
      rw [hc] at hlen
      cases hlen
    have hvne' : o.privateKeyVersion ≠ o.pubKeyHashVersion := hvne.symm
    cases b
    · -- compressed = false: marker 00
      have hchklen := checksumHexRaw_length digest hd (o.privateKeyVersion ++ key)
      have henc1 : b58cEncodePrivateKeyHex o digest p =
          .ok ({ p with version := some o.privateKeyVersion, compressed := some false },
            o.privateKeyVersion ++ (key ++ ['0', '0']) ++
              checksumHexRaw digest (o.privateKeyVersion ++ key)) := by
        simp only [b58cEncodePrivateKeyHex, hkey, hpkh, Option.getD_some,
          b58cSetVersion, b58cChecksum]
        rw [if_neg (by rw [hlen]; simp), if_pos hlen, ebind_ok]
        simp [setVersionCore_priv o hpvne hvne' p.version hver key hkne,
          checksumCore_priv o digest hpvne hvne' (some o.privateKeyVersion) (Or.inr rfl)
            key hkne (some false),
          emap_ok, ebind_ok, versionText, hlen, hpkh, hcomp]
      have hexlo : ∀ c ∈ o.privateKeyVersion ++ (key ++ ['0', '0']) ++
          checksumHexRaw digest (o.privateKeyVersion ++ key), isLoHexChar c := by
        intro c hc
        rcases List.mem_append.mp hc with h | h
        · rcases List.mem_append.mp h with h2 | h2
          · exact hvlo c h2
          · rcases List.mem_append.mp h2 with h3 | h3
            · exact hlo c h3
            · simp only [List.mem_cons, List.not_mem_nil, or_false] at h3
              rcases h3 with rfl | rfl <;> decide
        · exact checksumHexRaw_loHex digest hd _ c h
      have hexev : (o.privateKeyVersion ++ (key ++ ['0', '0']) ++
          checksumHexRaw digest (o.privateKeyVersion ++ key)).length % 2 = 0 := by
        simp [hpv2, hlen, checksumHexRaw_length digest hd]
      refine ⟨{ p with version := some o.privateKeyVersion, compressed := some false },
        bxEncode A (hexToU8 (o.privateKeyVersion ++ (key ++ ['0', '0']) ++
          checksumHexRaw digest (o.privateKeyVersion ++ key))),
        { version := some o.privateKeyVersion, privateKey := some key,
          compressed := some (['0', '0'] == ['0', '1']),
          check := some (checksumHexRaw digest (o.privateKeyVersion ++ key)) },
        ?_, ?_, rfl, rfl⟩
      · simp [b58cEncode, hx1, hx2, strTruthy_none, b58cEncodeHex, hpkh, hkey,
          strTruthy_of_ne_nil hkne, henc1]
      · rw [b58cDecode_bxEncode_hexToU8 o A hA hB _ hexev hexlo,
          b58cDecodeHex_priv_payload o hpv2 key ['0', '0'] _ hlen rfl hchklen]
    · -- compressed = true: marker 01
      have hchklen := checksumHexRaw_length digest hd
        (o.privateKeyVersion ++ key ++ ['0', '1'])
      have hc1 : p.compressed.getD true = true := by
        rw [hcomp]
        rfl
      have henc1 : b58cEncodePrivateKeyHex o digest p =
          .ok ({ p with version := some o.privateKeyVersion, compressed := some true },
            o.privateKeyVersion ++ (key ++ ['0', '1']) ++
              checksumHexRaw digest (o.privateKeyVersion ++ key ++ ['0', '1'])) := by
        simp only [b58cEncodePrivateKeyHex, hkey, hpkh, Option.getD_some,
          b58cSetVersion, b58cChecksum]
        rw [if_neg (by rw [hlen]; simp), if_pos hlen, ebind_ok]
        simp [setVersionCore_priv o hpvne hvne' p.version hver key hkne,
          checksumCore_priv o digest hpvne hvne' (some o.privateKeyVersion) (Or.inr rfl)
            key hkne (some true),
          emap_ok, ebind_ok, versionText, hlen, hpkh, hc1]
      have hexlo : ∀ c ∈ o.privateKeyVersion ++ (key ++ ['0', '1']) ++
          checksumHexRaw digest (o.privateKeyVersion ++ key ++ ['0', '1']), isLoHexChar c := by
        intro c hc
        rcases List.mem_append.mp hc with h | h
        · rcases List.mem_append.mp h with h2 | h2
          · exact hvlo c h2
          · rcases List.mem_append.mp h2 with h3 | h3
            · exact hlo c h3
            · simp only [List.mem_cons, List.not_mem_nil, or_false] at h3
              rcases h3 with rfl | rfl <;> decide
        · exact checksumHexRaw_loHex digest hd _ c h
      have hexev : (o.privateKeyVersion ++ (key ++ ['0', '1']) ++
          checksumHexRaw digest (o.privateKeyVersion ++ key ++ ['0', '1'])).length % 2 = 0 := by
        simp [hpv2, hlen, checksumHexRaw_length digest hd]
      refine ⟨{ p with version := some o.privateKeyVersion, compressed := some true },
        bxEncode A (hexToU8 (o.privateKeyVersion ++ (key ++ ['0', '1']) ++
          checksumHexRaw digest (o.privateKeyVersion ++ key ++ ['0', '1']))),
        { version := some o.privateKeyVersion, privateKey := some key,
          compressed := some (['0', '1'] == ['0', '1']),
          check := some (checksumHexRaw digest
            (o.privateKeyVersion ++ key ++ ['0', '1'])) },
        ?_, ?_, rfl, rfl⟩
      · simp [b58cEncode, hx1, hx2, strTruthy_none, b58cEncodeHex, hpkh, hkey,
          strTruthy_of_ne_nil hkne, henc1]
      · rw [b58cDecode_bxEncode_hexToU8 o A hA hB _ hexev hexlo,
          b58cDecodeHex_priv_payload o hpv2 key ['0', '1'] _ hlen rfl hchklen]

theorem C2_witness :
    (∃ p2 s p3, b58cEncode defaultOpts base58Alphabet constDigest
        { pubKeyHash := some (List.replicate 40 '0') } = .ok (p2, s) ∧
      b58cDecode defaultOpts base58Alphabet s = .ok p3 ∧
      p3.pubKeyHash = some (List.replicate 40 '0') ∧
      p3.version = some defaultOpts.pubKeyHashVersion) ∧
    (∃ p2 s p3, b58cEncode defaultOpts base58Alphabet constDigest
        { privateKey := some (List.replicate 64 '0'), compressed := some false } =
          .ok (p2, s) ∧
      b58cDecode defaultOpts base58Alphabet s = .ok p3 ∧
      p3.privateKey = some (List.replicate 64 '0') ∧ p3.compressed = some false) := by
  constructor
  · exact (C2_keycodec_roundtrip defaultOpts base58Alphabet constDigest (by decide)
      (by decide) goodDigest_constDigest (by decide) (by decide) (by decide) (by decide)
      (by decide)).1 _ _ rfl (by decide) (by decide) rfl rfl rfl (Or.inl rfl)
  · exact (C2_keycodec_roundtrip defaultOpts base58Alphabet constDigest (by decide)
      (by decide) goodDigest_constDigest (by decide) (by decide) (by decide) (by decide)
      (by decide)).2 _ _ false rfl (by decide) (by decide) rfl rfl rfl rfl (Or.inl rfl)

end B58C
